import Mathlib

/-!
# Verification of the rift directory-sync tool

A shallow embedding of `main.go` of the rift repository.

The program has two parts with non-trivial semantics:

* the exclusion-pattern matcher (`matchPattern`, `shouldExclude`), built on
  Go's `path/filepath.Match` glob matcher (on Unix, where the path separator
  is `/` and `filepath.ToSlash` is the identity);
* the two-phase tree synchronisation (`sync`, `copyFile`, `cleanOrphans`),
  modelled over an explicit file-system tree.

Strings are modelled as lists of characters (`List Char`); Go's byte-wise
scanning of patterns coincides with character-wise scanning because all
metacharacters are ASCII.  Functions that can fail in Go (`filepath.Match`
returning `ErrBadPattern`, file-system operations returning errors) are
modelled with `Option`, `none` standing for the error case.
-/

/-! ## Go `path/filepath.Match` (Unix: `Separator = '/'`)

`scanChunk` splits a pattern into a leading run of stars and the following
chunk (a maximal star-free segment; stars inside `[...]` do not break it).
-/

/-- The leading-`*` stripping loop at the top of Go's `scanChunk`:
returns whether at least one star was stripped, and the remainder. -/
def stripStars : List Char → Bool × List Char
  | '*' :: rest => (true, (stripStars rest).2)
  | l => (false, l)

/-- The scanning loop of Go's `scanChunk` (after stars are stripped):
splits the pattern into the next chunk and the rest.  `inrange` tracks
whether the scan is inside a `[...]` class; a `\` escapes the next
character; an unbracketed `*` ends the chunk. -/
def chunkScan (inrange : Bool) : List Char → List Char × List Char
  | [] => ([], [])
  | '\\' :: c2 :: rest =>
    let p := chunkScan inrange rest
    ('\\' :: c2 :: p.1, p.2)
  | '\\' :: [] => ('\\' :: [], [])
  | '[' :: rest =>
    let p := chunkScan true rest
    ('[' :: p.1, p.2)
  | ']' :: rest =>
    let p := chunkScan false rest
    (']' :: p.1, p.2)
  | '*' :: rest =>
    if inrange then
      let p := chunkScan inrange rest
      ('*' :: p.1, p.2)
    else ([], '*' :: rest)
  | c :: rest =>
    let p := chunkScan inrange rest
    (c :: p.1, p.2)

/-- Go's `scanChunk`: `(star, chunk, rest)`. -/
def scanChunk (pattern : List Char) : Bool × List Char × List Char :=
  let sp := stripStars pattern
  let p := chunkScan false sp.2
  (sp.1, p.1, p.2)

/-- Result of Go's `matchChunk`: `ErrBadPattern`, a failed match, or a
successful match returning the unconsumed remainder of the name. -/
inductive MatchRes where
  | err
  | fail
  | ok (rest : List Char)
deriving DecidableEq

mutual
/-- Go's `matchChunk` loop.  `failed` records whether the match has already
failed; the chunk is still scanned to the end so that a malformed pattern
reports `ErrBadPattern` even on a failed match.  The `[...]` class case
hands over to `classGo`. -/
def matchChunkGo (chunk s : List Char) (failed : Bool) : MatchRes :=
  match chunk with
  | [] => if failed then .fail else .ok s
  -- case '[': decode one character of s (when not failed), detect '^'
  | '[' :: '^' :: chunk' =>
    let failed' := failed || s.isEmpty
    classGo chunk' (if failed' then '\x00' else s.headD '\x00') true false false
      (if failed' then s else s.tail) failed'
  | '[' :: chunk' =>
    let failed' := failed || s.isEmpty
    classGo chunk' (if failed' then '\x00' else s.headD '\x00') false false false
      (if failed' then s else s.tail) failed'
  -- case '?': one non-separator character
  | '?' :: chunk' =>
    let failed' := failed || s.isEmpty
    if failed' then matchChunkGo chunk' s true
    else matchChunkGo chunk' s.tail (s.headD '\x00' == '/')
  -- case '\\': escape; at the end of the chunk this is ErrBadPattern
  | '\\' :: [] => .err
  | '\\' :: c :: chunk' =>
    let failed' := failed || s.isEmpty
    if failed' then matchChunkGo chunk' s true
    else matchChunkGo chunk' s.tail (c != s.headD '\x00')
  -- default: literal character
  | c :: chunk' =>
    let failed' := failed || s.isEmpty
    if failed' then matchChunkGo chunk' s true
    else matchChunkGo chunk' s.tail (c != s.headD '\x00')
termination_by structural chunk

/-- The character-class parsing loop of Go's `matchChunk` (the `for` loop in
the `'['` case), with `getEsc` inlined at each use.  `r` is the character
being matched, `acc` the accumulated range match, `hasRange` whether at
least one range was parsed (Go's `nrange > 0`).  Each arm mirrors one way
Go's loop can step or report `ErrBadPattern`. -/
def classGo (chunk : List Char) (r : Char) (negated acc hasRange : Bool)
    (s : List Char) (failed : Bool) : MatchRes :=
  match chunk with
  -- closing ']' with at least one range parsed: class complete
  | ']' :: rest =>
    if hasRange then matchChunkGo rest s (failed || (acc == negated))
    else .err              -- getEsc: ']' first is ErrBadPattern
  | [] => .err             -- getEsc of an empty chunk
  | '-' :: _ => .err       -- getEsc: '-' first is ErrBadPattern
  -- lo escaped by '\\' (getEsc): must have a following char and a nonempty tail
  | '\\' :: [] => .err
  | '\\' :: _ :: [] => .err
  -- lo escaped, then '-', then hi (getEsc again for hi)
  | '\\' :: _ :: '-' :: [] => .err
  | '\\' :: _ :: '-' :: ']' :: _ => .err
  | '\\' :: _ :: '-' :: '-' :: _ => .err
  | '\\' :: _ :: '-' :: '\\' :: [] => .err
  | '\\' :: _ :: '-' :: '\\' :: _ :: [] => .err
  | '\\' :: lo :: '-' :: '\\' :: hi :: rest3 =>
    classGo rest3 r negated (acc || (decide (lo ≤ r) && decide (r ≤ hi))) true s failed
  | '\\' :: _ :: '-' :: _ :: [] => .err
  | '\\' :: lo :: '-' :: hi :: rest3 =>
    classGo rest3 r negated (acc || (decide (lo ≤ r) && decide (r ≤ hi))) true s failed
  -- lo escaped, no '-' after it: single-character range lo..lo
  | '\\' :: lo :: rest =>
    classGo rest r negated (acc || (decide (lo ≤ r) && decide (r ≤ lo))) true s failed
  -- plain lo (not ']', '-' or '\\' thanks to the arms above)
  | _ :: [] => .err
  | _ :: '-' :: [] => .err
  | _ :: '-' :: ']' :: _ => .err
  | _ :: '-' :: '-' :: _ => .err
  | _ :: '-' :: '\\' :: [] => .err
  | _ :: '-' :: '\\' :: _ :: [] => .err
  | lo :: '-' :: '\\' :: hi :: rest3 =>
    classGo rest3 r negated (acc || (decide (lo ≤ r) && decide (r ≤ hi))) true s failed
  | _ :: '-' :: _ :: [] => .err
  | lo :: '-' :: hi :: rest3 =>
    classGo rest3 r negated (acc || (decide (lo ≤ r) && decide (r ≤ hi))) true s failed
  | lo :: rest =>
    classGo rest r negated (acc || (decide (lo ≤ r) && decide (r ≤ lo))) true s failed
termination_by structural chunk
end

/-- The inner star loop of Go's `Match`: try to match `chunk` at every
position of `name` after skipping `i+1` bytes, never skipping a separator.
Returns `none` for `ErrBadPattern`, `some none` when the loop exhausts
without a match, and `some (some t)` to continue the outer loop with the
remainder `t`. -/
def starLoop (chunk rest : List Char) : List Char → Option (Option (List Char))
  | [] => some none
  | a :: name' =>
    if a = '/' then some none
    else
      match matchChunkGo chunk name' false with
      | .ok t =>
        -- if this is the last chunk, the name must be exhausted
        if rest.isEmpty && !t.isEmpty then starLoop chunk rest name'
        else some (some t)
      | .err => none
      | .fail => starLoop chunk rest name'

/-- The outer `Pattern:` loop of Go's `Match`, indexed by fuel.  Each
iteration consumes at least one pattern character, so `pattern.length + 1`
units of fuel always suffice (`goMatchFuel_congr` below); the fuel only
makes the recursion structural. -/
def goMatchFuel : Nat → List Char → List Char → Option Bool
  | 0, _, _ => none
  | _ + 1, [], name => some name.isEmpty
  | fuel + 1, p :: pat', name =>
    let sc := scanChunk (p :: pat')
    let star := sc.1
    let chunk := sc.2.1
    let rest := sc.2.2
    if star && chunk.isEmpty then
      -- trailing * matches the rest of the name unless it has a separator
      some (!name.contains '/')
    else
      match matchChunkGo chunk name false with
      | .ok t =>
        if t.isEmpty || !rest.isEmpty then goMatchFuel fuel rest t
        else if star then
          match starLoop chunk rest name with
          | none => none
          | some none => some false
          | some (some t') => goMatchFuel fuel rest t'
        else some false
      | .err => none
      | .fail =>
        if star then
          match starLoop chunk rest name with
          | none => none
          | some none => some false
          | some (some t') => goMatchFuel fuel rest t'
        else some false

/-- Go's `filepath.Match pattern name` on Unix: `some matched` on success,
`none` for `ErrBadPattern`. -/
def goMatch (pattern name : List Char) : Option Bool :=
  goMatchFuel (pattern.length + 1) pattern name

/-- `matched, _ := filepath.Match(pattern, name)`: the error is discarded,
so an error counts as a non-match. -/
def matchedB (pattern name : List Char) : Bool :=
  (goMatch pattern name).getD false

/-! ## The pattern matcher: `matchPattern` and `shouldExclude`

`main.go` works on relative-path strings; `filepath.ToSlash` is the identity
on Unix.  The list-level helpers below mirror the `strings` /
`path/filepath` calls used by `matchPattern`.
-/

/-- `strings.Split(relPath, "/")`: split on every separator, keeping empty
components. -/
def splitSlash : List Char → List (List Char)
  | [] => [[]]
  | c :: cs =>
    if c = '/' then [] :: splitSlash cs
    else
      match splitSlash cs with
      | [] => [[c]]
      | p :: ps => (c :: p) :: ps

/-- `strings.Join(parts, "/")`. -/
def joinSlash : List (List Char) → List Char
  | [] => []
  | [p] => p
  | p :: ps => p ++ '/' :: joinSlash ps

/-- `strings.HasSuffix(pattern, "/")`. -/
def endsWithSlash (l : List Char) : Bool :=
  l.getLast? == some '/'

/-- `strings.HasPrefix(pattern, "**/")`. -/
def startsWithStarStar : List Char → Bool
  | '*' :: '*' :: '/' :: _ => true
  | _ => false

/-- `strings.TrimPrefix(pattern, "/")`: strip one leading separator. -/
def trimLeadSlash : List Char → List Char
  | '/' :: rest => rest
  | l => l

/-- The last element of `splitSlash` (the segment after the last separator). -/
def lastComp : List (List Char) → List Char
  | [] => []
  | [p] => p
  | _ :: ps => lastComp ps

/-- `filepath.Base` on Unix (no volume names): empty path gives ".", trailing
separators are stripped, a path of only separators gives "/", otherwise the
part after the last separator. -/
def baseL (l : List Char) : List Char :=
  if l.isEmpty then ['.']
  else if ((l.reverse.dropWhile (· == '/')).reverse).isEmpty then ['/']
  else lastComp (splitSlash ((l.reverse.dropWhile (· == '/')).reverse))

/-- The `for i := range parts` loop of the `**/` case of `matchPattern`:
try `suffix` against the joined tail `parts[i:]` and against the single
component `parts[i]`, for every starting index `i`. -/
def anyTailMatch (suffix : List Char) : List (List Char) → Bool
  | [] => false
  | p :: ps =>
    matchedB suffix (joinSlash (p :: ps)) || matchedB suffix p || anyTailMatch suffix ps

/-- The body of `matchPattern` after the directory-only handling: the `**/`
case, then patterns without a separator (matched against the basename and
every component), then rooted patterns (matched against the whole relative
path after one optional leading separator is stripped). -/
def matchPatternRest (relPath pat : List Char) : Bool :=
  if startsWithStarStar pat then
    anyTailMatch (pat.drop 3) (splitSlash relPath)
  else if !(pat.contains '/') then
    matchedB pat (baseL relPath) || (splitSlash relPath).any (fun part => matchedB pat part)
  else
    matchedB (trimLeadSlash pat) relPath

/-- `matchPattern` of `main.go` at the level of character lists
(`filepath.ToSlash` is the identity on Unix): a pattern with a trailing
separator is directory-only — the separator is stripped and files never
match. -/
def matchPatternL (relPath pat : List Char) (isDir : Bool) : Bool :=
  if endsWithSlash pat then
    if !isDir then false
    else matchPatternRest relPath pat.dropLast
  else matchPatternRest relPath pat

/-- `matchPattern(relPath, pattern, isDir)` of `main.go`. -/
def matchPattern (relPath pattern : String) (isDir : Bool) : Bool :=
  matchPatternL relPath.toList pattern.toList isDir

/-- `shouldExclude(relPath, patterns, isDir)` of `main.go`: true iff some
pattern matches. -/
def shouldExclude (relPath : String) (patterns : List String) (isDir : Bool) : Bool :=
  patterns.any (fun pattern => matchPattern relPath pattern isDir)

/-! ## The file-system model

`sync`, `copyFile` and `cleanOrphans` of `main.go` act on a host file
system; they are modelled over an explicit tree.  A directory holds its
entries as an association list in traversal (lexical) order; a file carries
its content (its `Stat` size is the content length), its modification time
and its permission mode.  Paths are lists of entry names, relative to the
tree root; the absolute destination paths `filepath.Join(dest, relPath)`
stored in `validPaths` are represented by their relative component lists
(the prefix `dest` is the same constant for every entry, and names in a
well-formed tree are nonempty and separator-free, so the component list
determines the joined string).  Failing file-system calls are modelled with
`Option`, `none` standing for an error, which aborts the surrounding walk
exactly as a returned `error` does in `main.go`. -/

/-- A file-system tree. -/
inductive FSTree where
  | file (content : String) (mtime : Nat) (mode : Nat)
  | dir (mode : Nat) (children : List (String × FSTree))

/-- `DirEntry.IsDir`. -/
def FSTree.isDir : FSTree → Bool
  | .dir _ _ => true
  | .file _ _ _ => false

/-- A legal entry name: nonempty and free of separators. -/
def validName (n : String) : Bool :=
  !n.isEmpty && !(n.toList.contains '/')

mutual
/-- Well-formedness of a tree: every directory has distinct, legal entry
names. -/
def wfT : FSTree → Bool
  | .file _ _ _ => true
  | .dir _ cs => wfC cs
/-- Well-formedness of a directory entry list. -/
def wfC : List (String × FSTree) → Bool
  | [] => true
  | (n, sub) :: cs =>
    validName n && !(cs.any (fun e => e.1 == n)) && wfT sub && wfC cs
end

mutual
/-- Resolve a path in a tree (`os.Stat`-style lookup). -/
def lookupT : FSTree → List String → Option FSTree
  | t, [] => some t
  | .file _ _ _, _ :: _ => none
  | .dir _ cs, n :: rest => lookupCh cs n rest
/-- Resolve a path starting at a directory entry list. -/
def lookupCh : List (String × FSTree) → String → List String → Option FSTree
  | [], _, _ => none
  | (k, sub) :: cs, n, rest =>
    if k = n then lookupT sub rest else lookupCh cs n rest
end

/-- The data of a single node, without its children: used to state which
paths exist and are untouched without also constraining grandchildren. -/
inductive NodeS where
  | file (content : String) (mtime : Nat) (mode : Nat)
  | dir (mode : Nat)
deriving DecidableEq

/-- Shape of the root node of a tree. -/
def shapeOf : FSTree → NodeS
  | .file c mt md => .file c mt md
  | .dir md _ => .dir md

/-- The node found at a path, if any. -/
def nodeAt (t : FSTree) (p : List String) : Option NodeS :=
  (lookupT t p).map shapeOf

mutual
/-- `os.RemoveAll(path)` relative to the root of `t`: removes the entry at
`p` and its whole subtree; removing a missing path is a no-op, as in Go. -/
def removeAllT : FSTree → List String → FSTree
  | t, [] => t
  | t@(.file _ _ _), _ :: _ => t
  | .dir m cs, n :: rest => .dir m (removeCh cs n rest)
/-- `removeAllT` on a directory entry list. -/
def removeCh : List (String × FSTree) → String → List String → List (String × FSTree)
  | [], _, _ => []
  | (k, sub) :: cs, n, rest =>
    if k = n then
      match rest with
      | [] => cs
      | _ :: _ => (k, removeAllT sub rest) :: cs
    else (k, sub) :: removeCh cs n rest
end

/-- The chain of fresh directories `os.MkdirAll` creates below the first
missing entry, every one with permission `perm`. -/
def freshDirs (perm : Nat) : List String → FSTree
  | [] => .dir perm []
  | n :: rest => .dir perm [(n, freshDirs perm rest)]

mutual
/-- `os.MkdirAll(path, perm)`: creates every missing directory along `p`
with permission `perm`, leaves existing directories untouched, and fails if
an existing entry along the way is a file. -/
def mkdirAllT : FSTree → List String → Nat → Option FSTree
  | t@(.dir _ _), [], _ => some t
  | .file _ _ _, [], _ => none
  | .file _ _ _, _ :: _, _ => none
  | .dir m cs, n :: rest, perm =>
    match mkdirCh cs n rest perm with
    | none => none
    | some cs' => some (.dir m cs')
/-- `mkdirAllT` on a directory entry list. -/
def mkdirCh : List (String × FSTree) → String → List String → Nat →
    Option (List (String × FSTree))
  | [], n, rest, perm => some [(n, freshDirs perm rest)]
  | (k, sub) :: cs, n, rest, perm =>
    if k = n then
      match mkdirAllT sub rest perm with
      | none => none
      | some sub' => some ((k, sub') :: cs)
    else
      match mkdirCh cs n rest perm with
      | none => none
      | some cs' => some ((k, sub) :: cs')
end

mutual
/-- `os.OpenFile(dest, O_RDWR|O_CREATE|O_TRUNC, mode)` followed by the copy
and `os.Chtimes`: writes a file node at `p`.  A missing parent, a parent
that is a file, or an existing directory at `p` is an error. -/
def writeFileT : FSTree → List String → String → Nat → Nat → Option FSTree
  | _, [], _, _, _ => none
  | .file _ _ _, _ :: _, _, _, _ => none
  | .dir m cs, n :: rest, c, mt, md =>
    match writeCh cs n rest c mt md with
    | none => none
    | some cs' => some (.dir m cs')
/-- `writeFileT` on a directory entry list. -/
def writeCh : List (String × FSTree) → String → List String → String → Nat → Nat →
    Option (List (String × FSTree))
  | [], n, [], c, mt, md => some [(n, .file c mt md)]
  | [], _, _ :: _, _, _, _ => none
  | (k, sub) :: cs, n, rest, c, mt, md =>
    if k = n then
      match rest with
      | [] =>
        match sub with
        | .dir _ _ => none
        | .file _ _ _ => some ((k, .file c mt md) :: cs)
      | _ :: _ =>
        match writeFileT sub rest c mt md with
        | none => none
        | some sub' => some ((k, sub') :: cs)
    else
      match writeCh cs n rest c mt md with
      | none => none
      | some cs' => some ((k, sub) :: cs')
end

/-- `copyFile(src, dest)` of `main.go`, with the source file's stat data
(content, modification time, mode) passed in by the walker.  Returns the
new destination tree and whether a copy was performed: ensure the parent
directory exists (`MkdirAll(Dir(dest), 0755)`); if a file already exists at
`dest` with equal size and equal modification time, skip; otherwise write
the content and restore the source modification time (`Chtimes`).  A fresh
file gets the source mode (`O_CREATE`), an overwritten file keeps its own.
An existing directory at `dest` makes the `OpenFile` fail. -/
def copyFile (content : String) (mtime mode : Nat) (dst : FSTree)
    (p : List String) : Option (FSTree × Bool) :=
  match mkdirAllT dst p.dropLast 0o755 with
  | none => none
  | some d1 =>
    match lookupT d1 p with
    | some (.file c2 mt2 md2) =>
      if c2.length = content.length ∧ mt2 = mtime then some (d1, false)
      else
        match writeFileT d1 p content mtime md2 with
        | none => none
        | some d2 => some (d2, true)
    | some (.dir _ _) => none
    | none =>
      match writeFileT d1 p content mtime mode with
      | none => none
      | some d2 => some (d2, true)

/-- `filepath.Rel(src, path)` for the entry at component path `p`. -/
def joinPath (p : List String) : String :=
  String.intercalate "/" p

mutual
/-- The `filepath.WalkDir` callback of `sync` in `main.go` at one source
entry `name` of the directory at relative path `rel`, applied to the
destination tree: consult `shouldExclude` (skipping the entry, and with it
its whole subtree when it is a directory — `filepath.SkipDir`); otherwise
record the destination path in the valid-path set and either create the
directory (then walk its children) or copy the file.  Returns the new
destination tree, the valid paths recorded, and the number of file copies
performed. -/
def syncEntry (patterns : List String) (rel : List String) (name : String) :
    FSTree → FSTree → Option (FSTree × List (List String) × Nat)
  | .file c mt md, dst =>
    if shouldExclude (joinPath (rel ++ [name])) patterns false then some (dst, [], 0)
    else
      match copyFile c mt md dst (rel ++ [name]) with
      | none => none
      | some (d1, copied) => some (d1, [rel ++ [name]], if copied then 1 else 0)
  | .dir m cs, dst =>
    if shouldExclude (joinPath (rel ++ [name])) patterns true then some (dst, [], 0)
    else
      match mkdirAllT dst (rel ++ [name]) m with
      | none => none
      | some d1 =>
        match syncList patterns (rel ++ [name]) cs d1 with
        | none => none
        | some (d2, v, n) => some (d2, (rel ++ [name]) :: v, n)
/-- The forward walk over the entries of one source directory, in
traversal order, threading the destination tree through. -/
def syncList (patterns : List String) (rel : List String) :
    List (String × FSTree) → FSTree → Option (FSTree × List (List String) × Nat)
  | [], dst => some (dst, [], 0)
  | (name, sub) :: cs, dst =>
    match syncEntry patterns rel name sub dst with
    | none => none
    | some (d1, v1, n1) =>
      match syncList patterns rel cs d1 with
      | none => none
      | some (d2, v2, n2) => some (d2, v1 ++ v2, n1 + n2)
end

mutual
/-- The destination scan of `cleanOrphans` in `main.go`: walk the
destination in pre-order (the root itself is skipped by the caller),
collect every path not in `validPaths`, and stop descending below a
collected directory (`filepath.SkipDir`). -/
def collectT (valid : List (List String)) (rel : List String) :
    FSTree → List (List String)
  | .file _ _ _ => []
  | .dir _ cs => collectL valid rel cs
/-- `collectT` over the entries of one destination directory. -/
def collectL (valid : List (List String)) (rel : List String) :
    List (String × FSTree) → List (List String)
  | [] => []
  | (name, sub) :: cs =>
    (if (rel ++ [name]) ∈ valid then collectT valid (rel ++ [name]) sub
     else [rel ++ [name]]) ++ collectL valid rel cs
end

/-- `cleanOrphans(dest, validPaths)` of `main.go`: scan first, then remove
every collected path recursively (`os.RemoveAll`), in scan order. -/
def cleanOrphans (dst : FSTree) (valid : List (List String)) : FSTree :=
  (collectT valid [] dst).foldl removeAllT dst

/-- `sync(src, dest, patterns)` of `main.go`: walk the source (the root
itself has relative path "." and is skipped), then reconcile the
destination.  The destination root is modelled as an existing directory
tree.  Returns the reconciled destination, the valid-path set of the
forward phase, and the number of file copies performed. -/
def sync (src dst : FSTree) (patterns : List String) :
    Option (FSTree × List (List String) × Nat) :=
  match src with
  | .file _ _ _ => some (cleanOrphans dst [], [], 0)
  | .dir _ cs =>
    match syncList patterns [] cs dst with
    | none => none
    | some (d1, v, n) => some (cleanOrphans d1 v, v, n)

/-! ## The reconciliation phase: specification of `cleanOrphans` -/

/-- Every nonempty ancestor of a valid path is valid.  This is exactly the
shape of the valid-path set the forward phase produces (paths are recorded
parent-first, and an excluded directory prunes its whole subtree). -/
def ancClosed (v : List (List String)) : Prop :=
  ∀ p ∈ v, ∀ q, q ≠ [] → q <+: p → q ∈ v

/-! ## The valid-path set of the forward phase -/

mutual
/-- The valid paths the forward walk records for one source entry,
independent of the destination: nothing for an excluded entry, the entry
itself (plus, for a directory, its surviving descendants) otherwise. -/
def validOfE (pats : List String) (rel : List String) (name : String) :
    FSTree → List (List String)
  | .file _ _ _ =>
    if shouldExclude (joinPath (rel ++ [name])) pats false then []
    else [rel ++ [name]]
  | .dir _ cs =>
    if shouldExclude (joinPath (rel ++ [name])) pats true then []
    else (rel ++ [name]) :: validOf pats (rel ++ [name]) cs
/-- The valid paths recorded for a list of source entries. -/
def validOf (pats : List String) (rel : List String) :
    List (String × FSTree) → List (List String)
  | [] => []
  | (name, sub) :: cs => validOfE pats rel name sub ++ validOf pats rel cs
end

/-- Resolve a nonempty relative path among a directory's entries. -/
def srcAtC (cs : List (String × FSTree)) : List String → Option FSTree
  | [] => none
  | n :: rest => lookupCh cs n rest

mutual
/-- The destination `d` already reflects one source entry: if the entry is
not excluded, a node of the right kind stands at its destination path —
for a file, one with the source's modification time and size; for a
directory, a directory node, recursively reflecting the children.  This is
exactly the postcondition the forward walk establishes, and the
precondition making a second walk a no-op. -/
def okE (pats : List String) (d : FSTree) (rel : List String) (name : String) :
    FSTree → Prop
  | .file c mt _ =>
    shouldExclude (joinPath (rel ++ [name])) pats false = false →
    ∃ c' md', nodeAt d (rel ++ [name]) = some (.file c' mt md') ∧
      c'.length = c.length
  | .dir _ cs =>
    shouldExclude (joinPath (rel ++ [name])) pats true = false →
    (∃ md', nodeAt d (rel ++ [name]) = some (.dir md')) ∧
      okL pats d (rel ++ [name]) cs
/-- `okE` over a list of source entries. -/
def okL (pats : List String) (d : FSTree) (rel : List String) :
    List (String × FSTree) → Prop
  | [] => True
  | (name, sub) :: cs => okE pats d rel name sub ∧ okL pats d rel cs
end

/-! ## Helper lemmas about the matcher -/

/-- `startsWithStarStar` inverted: the pattern literally starts with the
three characters of the double-star token. -/
theorem startsWithStarStar_iff (l : List Char) :
    startsWithStarStar l = true ↔ ∃ t, l = '*' :: '*' :: '/' :: t := by
  constructor
  · intro h
    unfold startsWithStarStar at h
    split at h
    · next t => exact ⟨t, rfl⟩
    · exact absurd h (by simp)
  · rintro ⟨t, rfl⟩
    rfl

/-- A pattern with no separator does not start with the double-star token. -/
theorem startsWithStarStar_of_no_slash {l : List Char}
    (h : l.contains '/' = false) : startsWithStarStar l = false := by
  cases hs : startsWithStarStar l
  · rfl
  · obtain ⟨t, rfl⟩ := (startsWithStarStar_iff l).mp hs
    simp [List.contains] at h

/-- A pattern with no separator does not end with one. -/
theorem endsWithSlash_of_no_slash {l : List Char}
    (h : l.contains '/' = false) : endsWithSlash l = false := by
  cases hs : endsWithSlash l
  · rfl
  · unfold endsWithSlash at hs
    rw [beq_iff_eq, List.getLast?_eq_some_iff] at hs
    obtain ⟨ys, rfl⟩ := hs
    simp [List.contains] at h

/-! ## Claim C4: directory-only patterns never match files -/

/-- C4.  For every relative path `P` and every pattern ending in a path
separator (a directory-only pattern such as "name/"),
`matchPattern P pattern false` (not a directory) returns `false`, regardless
of whether any component or the basename of `P` would match the
separator-stripped pattern. -/
theorem c4_dirOnly_never_matches_file (P pat : String)
    (h : endsWithSlash pat.toList = true) :
    matchPattern P pat false = false := by
  show matchPatternL P.toList pat.toList false = false
  unfold matchPatternL
  rw [h]
  simp

/-- Witness for C4 at a concrete input: the basename of the path equals the
stripped pattern, and still there is no match because the entry is a file. -/
theorem c4_dirOnly_never_matches_file_witness :
    endsWithSlash "node_modules/".toList = true ∧
      matchPattern "src/node_modules" "node_modules/" false = false :=
  ⟨rfl, c4_dirOnly_never_matches_file "src/node_modules" "node_modules/" rfl⟩

/-! ## Claim C9: malformed glob patterns are errors that exclude nothing -/

/-- A bare unclosed bracket is `ErrBadPattern` for every name. -/
theorem goMatch_lbracket_err (s : List Char) : goMatch ['['] s = none := by
  cases s <;> rfl

/-- `matched, _ := filepath.Match("[", s)` is therefore `false` for every
name. -/
theorem matchedB_lbracket (s : List Char) : matchedB ['['] s = false := by
  simp [matchedB, goMatch_lbracket_err]

/-- C9.  `matchPattern` always returns a boolean and never propagates a
glob-syntax error: the malformed pattern "[" (an unclosed bracket class) is
an `ErrBadPattern` for `filepath.Match` on every name, the discarded error
makes it match nothing, and `shouldExclude` over a pattern set containing
it returns the same result as without it. -/
theorem c9_malformed_pattern_excludes_nothing :
    (∀ s : List Char, goMatch ['['] s = none) ∧
    (∀ (P : String) (d : Bool), matchPattern P "[" d = false) ∧
    (∀ (P : String) (pre post : List String) (d : Bool),
      shouldExclude P (pre ++ "[" :: post) d = shouldExclude P (pre ++ post) d) := by
  have hmp : ∀ (P : String) (d : Bool), matchPattern P "[" d = false := by
    intro P d
    show matchPatternL P.toList ['['] d = false
    simp [matchPatternL, matchPatternRest, endsWithSlash, startsWithStarStar,
      matchedB_lbracket, List.any_eq_false]
  refine ⟨goMatch_lbracket_err, hmp, ?_⟩
  intro P pre post d
  simp [shouldExclude, List.any_append, List.any_cons, hmp]

/-! ## Claim C6: rooted patterns are anchored at the tree root -/

/-- C6.  For every pattern that contains a path separator, does not begin
with the double-star token and is not directory-only (trailing separator,
which rule 1 handles first): `matchPattern` is exactly a glob match of the
whole relative path against the pattern with one optional leading separator
stripped — so a match against a proper nested sub-path is false, e.g.
pattern "build/output" against "src/build/output". -/
theorem c6_rooted_patterns_anchored :
    (∀ (P pat : String) (d : Bool),
      pat.toList.contains '/' = true →
      startsWithStarStar pat.toList = false →
      endsWithSlash pat.toList = false →
      matchPattern P pat d = matchedB (trimLeadSlash pat.toList) P.toList) ∧
    matchPattern "src/build/output" "build/output" true = false := by
  refine ⟨?_, rfl⟩
  intro P pat d h1 h2 h3
  show matchPatternL P.toList pat.toList d = _
  unfold matchPatternL
  rw [h3]
  unfold matchPatternRest
  rw [h2, h1]
  simp

/-- Witness for C6 at a concrete input: the rooted pattern "build/output"
matched at a nested depth reduces to the anchored whole-path glob match
(which is false there). -/
theorem c6_rooted_patterns_anchored_witness :
    matchPattern "src/build/output" "build/output" true =
      matchedB (trimLeadSlash "build/output".toList) "src/build/output".toList :=
  c6_rooted_patterns_anchored.1 "src/build/output" "build/output" true rfl rfl rfl

/-! ## Claim C5: double-star patterns match at any depth -/

/-- The `for i := range parts` loop of the `**/` case, characterised: the
suffix matches some joined component tail, or some single component. -/
theorem anyTailMatch_iff (sfx : List Char) (parts : List (List Char)) :
    anyTailMatch sfx parts = true ↔
      (∃ i, i < parts.length ∧ matchedB sfx (joinSlash (parts.drop i)) = true) ∨
      (∃ part ∈ parts, matchedB sfx part = true) := by
  induction parts with
  | nil => simp [anyTailMatch]
  | cons p ps ih =>
    unfold anyTailMatch
    simp only [Bool.or_eq_true, ih]
    constructor
    · rintro ((h | h) | (⟨i, hi, h⟩ | ⟨part, hp, h⟩))
      · exact Or.inl ⟨0, Nat.succ_pos _, h⟩
      · exact Or.inr ⟨p, List.mem_cons_self p ps, h⟩
      · exact Or.inl ⟨i + 1, Nat.succ_lt_succ hi, h⟩
      · exact Or.inr ⟨part, List.mem_cons_of_mem p hp, h⟩
    · rintro (⟨i, hi, h⟩ | ⟨part, hp, h⟩)
      · match i, hi, h with
        | 0, _, h => exact Or.inl (Or.inl h)
        | j + 1, hi, h =>
          exact Or.inr (Or.inl ⟨j, Nat.lt_of_succ_lt_succ hi, h⟩)
      · rcases List.mem_cons.mp hp with rfl | hp
        · exact Or.inl (Or.inr h)
        · exact Or.inr (Or.inr ⟨part, hp, h⟩)

/-- C5.  For every relative path and every pattern beginning with the
double-star token "**/" (and not directory-only, which rule 1 handles
first): `matchPattern` returns true iff the stripped suffix glob-matches
some joined component tail `parts[i:]` of the path, or glob-matches some
single component in isolation; in particular "**/test" matches both the
path "test" and the path "a/b/test". -/
theorem c5_double_star_any_depth :
    (∀ (P pat : String) (d : Bool),
      startsWithStarStar pat.toList = true →
      endsWithSlash pat.toList = false →
      (matchPattern P pat d = true ↔
        (∃ i, i < (splitSlash P.toList).length ∧
            matchedB (pat.toList.drop 3) (joinSlash ((splitSlash P.toList).drop i)) = true) ∨
        (∃ part ∈ splitSlash P.toList, matchedB (pat.toList.drop 3) part = true))) ∧
    (∀ d, matchPattern "test" "**/test" d = true ∧
      matchPattern "a/b/test" "**/test" d = true) := by
  constructor
  · intro P pat d h1 h2
    show matchPatternL P.toList pat.toList d = true ↔ _
    unfold matchPatternL
    rw [h2]
    unfold matchPatternRest
    rw [h1]
    simp only [if_true]
    exact anyTailMatch_iff _ _
  · intro d
    cases d <;> exact ⟨rfl, rfl⟩

/-- Witness for C5 at a concrete input: the characterisation applied to the
pattern "**/test" and the nested path "a/b/test". -/
theorem c5_double_star_any_depth_witness :
    matchPattern "a/b/test" "**/test" true = true ↔
      (∃ i, i < (splitSlash "a/b/test".toList).length ∧
          matchedB ("**/test".toList.drop 3)
            (joinSlash ((splitSlash "a/b/test".toList).drop i)) = true) ∨
      (∃ part ∈ splitSlash "a/b/test".toList,
          matchedB ("**/test".toList.drop 3) part = true) :=
  c5_double_star_any_depth.1 "a/b/test" "**/test" true rfl rfl

/-! ## Claim C7: patterns without a separator are depth-independent -/

/-- `strings.Split` never returns an empty list. -/
theorem splitSlash_ne_nil (l : List Char) : splitSlash l ≠ [] := by
  cases l with
  | nil => simp [splitSlash]
  | cons c cs =>
    unfold splitSlash
    split
    · simp
    · split <;> simp_all


/-- One step of `splitSlash` at a separator. -/
theorem splitSlash_cons_slash (l : List Char) :
    splitSlash ('/' :: l) = [] :: splitSlash l := rfl

/-- One step of `splitSlash` at a non-separator. -/
theorem splitSlash_cons_ne (c : Char) (l : List Char) (hc : ¬c = '/') :
    splitSlash (c :: l) =
      match splitSlash l with
      | [] => [[c]]
      | p :: ps => (c :: p) :: ps := by
  conv_lhs => unfold splitSlash
  rw [if_neg hc]

/-- Splitting on `/` distributes over an append around a separator. -/
theorem splitSlash_append_cons (pre P : List Char) :
    splitSlash (pre ++ '/' :: P) = splitSlash pre ++ splitSlash P := by
  induction pre with
  | nil => rfl
  | cons c cs ih =>
    by_cases hc : c = '/'
    · subst hc
      show splitSlash ('/' :: (cs ++ '/' :: P)) = splitSlash ('/' :: cs) ++ splitSlash P
      rw [splitSlash_cons_slash, splitSlash_cons_slash, ih]
      rfl
    · show splitSlash (c :: (cs ++ '/' :: P)) = splitSlash (c :: cs) ++ splitSlash P
      rw [splitSlash_cons_ne c _ hc, splitSlash_cons_ne c _ hc, ih]
      cases hcs : splitSlash cs with
      | nil => exact absurd hcs (splitSlash_ne_nil cs)
      | cons p ps => simp

/-- The last component of an appended split list comes from the right part. -/
theorem lastComp_append (xs : List (List Char)) {ys : List (List Char)}
    (h : ys ≠ []) : lastComp (xs ++ ys) = lastComp ys := by
  induction xs with
  | nil => rfl
  | cons x xs ih =>
    cases xs with
    | nil =>
      cases ys with
      | nil => exact absurd rfl h
      | cons y ys => rfl
    | cons x2 xs2 => exact ih

/-- Dropping a satisfied-prefix from an append whose left part contains a
counterexample stops inside the left part. -/
theorem dropWhile_append_left {p : Char → Bool} {a : List Char} (b : List Char)
    (h : ∃ x ∈ a, p x = false) :
    (a ++ b).dropWhile p = a.dropWhile p ++ b := by
  rw [List.dropWhile_append]
  have hne : a.dropWhile p ≠ [] := by
    intro hnil
    obtain ⟨x, hx, hpx⟩ := h
    have := List.dropWhile_eq_nil_iff.mp hnil x hx
    simp [this] at hpx
  simp [List.isEmpty_iff, hne]

/-- `filepath.Base` ignores prefixed directory components, as long as the
path has at least one non-separator character. -/
theorem baseL_append_cons (pre : List Char) {P : List Char}
    (hP : ∃ c ∈ P, c ≠ '/') :
    baseL (pre ++ '/' :: P) = baseL P := by
  obtain ⟨c, hc, hcs⟩ := hP
  have hwit : ∃ x ∈ P.reverse, (x == '/') = false := by
    refine ⟨c, List.mem_reverse.mpr hc, ?_⟩
    simp [hcs]
  have hdropne : P.reverse.dropWhile (· == '/') ≠ [] := by
    intro hnil
    obtain ⟨x, hx, hpx⟩ := hwit
    have := List.dropWhile_eq_nil_iff.mp hnil x hx
    simp [this] at hpx
  have hPne : P ≠ [] := by rintro rfl; simp at hc
  have hdrop :
      ((pre ++ '/' :: P).reverse.dropWhile (· == '/')).reverse =
        pre ++ '/' :: (P.reverse.dropWhile (· == '/')).reverse := by
    rw [show (pre ++ '/' :: P).reverse = P.reverse ++ '/' :: pre.reverse by simp]
    rw [dropWhile_append_left ('/' :: pre.reverse) hwit]
    simp
  unfold baseL
  rw [hdrop]
  have h1 : (pre ++ '/' :: P : List Char).isEmpty = false := by
    cases pre <;> rfl
  have h2 : P.isEmpty = false := by
    cases P
    · exact absurd rfl hPne
    · rfl
  have h3 : (pre ++ '/' :: (P.reverse.dropWhile (· == '/')).reverse : List Char).isEmpty = false := by
    cases pre <;> rfl
  have h4 : ((P.reverse.dropWhile (· == '/')).reverse : List Char).isEmpty = false := by
    cases hq : (P.reverse.dropWhile (· == '/')).reverse with
    | nil => exact absurd (by simpa using congrArg List.reverse hq) hdropne
    | cons y ys => rfl
  rw [h1, h2, h3, h4]
  simp only [Bool.false_eq_true, if_false]
  rw [splitSlash_append_cons]
  exact lastComp_append _ (splitSlash_ne_nil _)

/-- For a pattern without a separator, `matchPattern` is the component
branch: a glob match of the basename or of any component. -/
theorem matchPatternL_component (P pat : List Char) (d : Bool)
    (hpat : pat.contains '/' = false) :
    matchPatternL P pat d =
      (matchedB pat (baseL P) ||
        (splitSlash P).any (fun part => matchedB pat part)) := by
  have h2 := endsWithSlash_of_no_slash hpat
  have h3 := startsWithStarStar_of_no_slash hpat
  unfold matchPatternL
  rw [h2]
  unfold matchPatternRest
  rw [h3, hpat]
  rfl

/-- Core of C7 at the list level: for a pattern without a separator, one
more leading directory component preserves a match (the basename is
unchanged and every old component is still present). -/
theorem matchPatternL_cons_dir (pre P pat : List Char) (d : Bool)
    (hpat : pat.contains '/' = false)
    (hP : ∃ c ∈ P, c ≠ '/')
    (h : matchPatternL P pat d = true) :
    matchPatternL (pre ++ '/' :: P) pat d = true := by
  rw [matchPatternL_component _ _ _ hpat] at h ⊢
  rw [baseL_append_cons pre hP, splitSlash_append_cons, List.any_append]
  rw [Bool.or_eq_true] at h ⊢
  rcases h with h1 | h1
  · exact Or.inl h1
  · refine Or.inr ?_
    rw [Bool.or_eq_true]
    exact Or.inr h1

/-- C7.  For every pattern containing no path separator, matching is
depth-independent: prepending any sequence of leading directory components
`d1/…/dk` to a matching relative path (one with at least one non-separator
character) never turns the match into a non-match. -/
theorem c7_no_separator_depth_independent (P pat : String) (isDir : Bool)
    (ds : List String)
    (hpat : pat.toList.contains '/' = false)
    (hP : ∃ c ∈ P.toList, c ≠ '/')
    (h : matchPattern P pat isDir = true) :
    matchPattern (ds.foldr (fun dir acc => dir ++ "/" ++ acc) P) pat isDir = true := by
  induction ds with
  | nil => exact h
  | cons dir rest ih =>
    have hQ : ∃ c ∈ (rest.foldr (fun dir acc => dir ++ "/" ++ acc) P).toList, c ≠ '/' := by
      obtain ⟨c, hc, hcs⟩ := hP
      clear ih h
      induction rest with
      | nil => exact ⟨c, hc, hcs⟩
      | cons e es ihe =>
        obtain ⟨c', hc', hcs'⟩ := ihe
        refine ⟨c', ?_, hcs'⟩
        show c' ∈ (e ++ "/" ++ es.foldr (fun dir acc => dir ++ "/" ++ acc) P).data
        rw [String.data_append]
        exact List.mem_append_right _ hc'
    show matchPatternL _ _ _ = true
    have hsplit :
        (dir ++ "/" ++ rest.foldr (fun dir acc => dir ++ "/" ++ acc) P).toList =
          dir.toList ++ '/' :: (rest.foldr (fun dir acc => dir ++ "/" ++ acc) P).toList := by
      show (dir ++ "/" ++ rest.foldr (fun dir acc => dir ++ "/" ++ acc) P).data = _
      rw [String.data_append, String.data_append]
      simp
    rw [List.foldr_cons, hsplit]
    exact matchPatternL_cons_dir _ _ _ _ hpat hQ ih

/-- Witness for C7 at a concrete input: "*.log" matches "debug.log" and
still matches after prepending the components "a" and "b". -/
theorem c7_no_separator_depth_independent_witness :
    matchPattern (["a", "b"].foldr (fun dir acc => dir ++ "/" ++ acc) "debug.log")
      "*.log" false = true :=
  c7_no_separator_depth_independent "debug.log" "*.log" false ["a", "b"] rfl
    ⟨'d', by decide, by decide⟩ rfl

/-! ## Adequacy of the fuel for `goMatch`

`scanChunk` always consumes at least one pattern character, so any fuel
above the pattern length gives the same result; in particular the
`pattern.length + 1` used by `goMatch` is enough. -/

/-- `stripStars` at a pattern that does not start with a star. -/
theorem stripStars_eq_no_star {l : List Char} (h : ∀ rest, l ≠ '*' :: rest) :
    stripStars l = (false, l) := by
  unfold stripStars
  split
  · next rest => exact absurd rfl (h rest)
  · rfl

/-- `stripStars` never lengthens the pattern. -/
theorem stripStars_le (l : List Char) : (stripStars l).2.length ≤ l.length := by
  induction l using stripStars.induct with
  | case1 rest ih =>
    show (true, (stripStars rest).2).2.length ≤ ('*' :: rest).length
    exact Nat.le_succ_of_le ih
  | case2 l h =>
    rw [stripStars_eq_no_star (fun rest heq => h rest heq)]

/-- When a star is stripped the pattern gets strictly shorter. -/
theorem stripStars_lt {l : List Char} (h : (stripStars l).1 = true) :
    (stripStars l).2.length < l.length := by
  cases l using stripStars.induct with
  | case1 rest ih =>
    show (true, (stripStars rest).2).2.length < ('*' :: rest).length
    exact Nat.lt_succ_of_le (stripStars_le rest)
  | case2 l hne =>
    rw [stripStars_eq_no_star (fun rest heq => hne rest heq)] at h
    exact absurd h (by simp)

/-- `chunkScan` splits the pattern into chunk and rest. -/
theorem chunkScan_append (b : Bool) (l : List Char) :
    (chunkScan b l).1 ++ (chunkScan b l).2 = l := by
  induction b, l using chunkScan.induct <;> simp_all [chunkScan]

/-- Outside a class, a chunk starting with a non-star character is
nonempty. -/
theorem chunkScan_fst_ne {c : Char} (cs : List Char) (hc : c ≠ '*') :
    (chunkScan false (c :: cs)).1 ≠ [] := by
  unfold chunkScan
  split <;> simp_all

/-- Each iteration of the `Pattern:` loop strictly shortens the pattern. -/
theorem scanChunk_rest_lt {pat : List Char} (h : pat ≠ []) :
    (scanChunk pat).2.2.length < pat.length := by
  show (chunkScan false (stripStars pat).2).2.length < pat.length
  have happ := chunkScan_append false (stripStars pat).2
  have hlen : (chunkScan false (stripStars pat).2).1.length +
      (chunkScan false (stripStars pat).2).2.length = (stripStars pat).2.length := by
    rw [← List.length_append, happ]
  cases hstar : (stripStars pat).1 with
  | true =>
    have := stripStars_lt hstar
    omega
  | false =>
    have heq : stripStars pat = (false, pat) := by
      cases pat using stripStars.induct with
      | case1 rest ih => simp [stripStars] at hstar
      | case2 l hne => exact stripStars_eq_no_star (fun rest heq => hne rest heq)
    have hq2 : (stripStars pat).2 = pat := by rw [heq]
    rw [hq2] at hlen ⊢
    cases pat with
    | nil => exact absurd rfl h
    | cons c cs =>
      have hcne : c ≠ '*' := by
        rintro rfl
        rw [show stripStars ('*' :: cs) = (true, (stripStars cs).2) from rfl] at hstar
        exact absurd hstar (by simp)
      have hne := chunkScan_fst_ne cs hcne
      have hpos : 0 < (chunkScan false (c :: cs)).1.length := by
        cases hl : (chunkScan false (c :: cs)).1 with
        | nil => exact absurd hl hne
        | cons x xs => simp
      simp only [List.length_cons] at hlen ⊢
      omega

/-- Any fuel above the pattern length computes the same `Match` result:
the fuel in `goMatch` is an artefact of the embedding, not a semantic
bound. -/
theorem goMatchFuel_congr : ∀ (f g : Nat) (pat name : List Char),
    pat.length < f → pat.length < g →
    goMatchFuel f pat name = goMatchFuel g pat name := by
  intro f
  induction f with
  | zero => intro g pat name hf; omega
  | succ f ih =>
    intro g pat name hf hg
    match g, hg with
    | g + 1, hg =>
      cases pat with
      | nil => rfl
      | cons p pat' =>
        have hrest := @scanChunk_rest_lt (p :: pat') (by simp)
        cases hsc : scanChunk (p :: pat') with
        | mk star rest2 =>
          cases rest2 with
          | mk chunk rest =>
            rw [hsc] at hrest
            simp only [List.length_cons] at hf hg hrest
            have hr1 : rest.length < f := by omega
            have hr2 : rest.length < g := by omega
            have hrec : ∀ t, goMatchFuel f rest t = goMatchFuel g rest t :=
              fun t => ih g rest t hr1 hr2
            show goMatchFuel (f + 1) (p :: pat') name = goMatchFuel (g + 1) (p :: pat') name
            rw [goMatchFuel, goMatchFuel]
            simp only [hsc, hrec]

/-! ## Basic lemmas about the file-system model -/

/-- Looking up a concatenated path resolves the first part, then the
second. -/
theorem lookupT_append : ∀ (t : FSTree) (p q : List String),
    lookupT t (p ++ q) = (lookupT t p).bind (fun s => lookupT s q) := by
  intro t p
  induction t, p using lookupT.induct with
  | motive_2 cs n rest =>
    exact ∀ q,
      lookupCh cs n (rest ++ q) = (lookupCh cs n rest).bind (fun s => lookupT s q)
  | case1 t => intro q; cases t <;> rfl
  | case2 c mt md hd tl => intro q; rfl
  | case3 m cs n rest ih => intro q; exact ih q
  | case4 n rest => intro q; rfl
  | case5 sub cs n rest ih =>
    intro q
    show lookupCh ((n, sub) :: cs) n (rest ++ q) = _
    unfold lookupCh
    simp only [if_pos rfl]
    exact ih q
  | case6 k sub cs n rest hne ih =>
    intro q
    show lookupCh ((k, sub) :: cs) n (rest ++ q) = _
    unfold lookupCh
    simp only [if_neg hne]
    exact ih q

/-- An entry that resolves below a nonempty path has a directory at the
path's parent. -/
theorem lookup_parent_dir {t : FSTree} {p : List String} {e : FSTree}
    (hne : p ≠ []) (h : lookupT t p = some e) :
    ∃ m cs, lookupT t p.dropLast = some (.dir m cs) := by
  have hsplit : p.dropLast ++ [p.getLast hne] = p := List.dropLast_append_getLast hne
  rw [← hsplit, lookupT_append] at h
  cases hu : lookupT t p.dropLast with
  | none => rw [hu] at h; exact absurd h (by simp)
  | some u =>
    rw [hu] at h
    cases u with
    | file c mt md => exact absurd h (by simp [lookupT])
    | dir m cs => exact ⟨m, cs, rfl⟩

/-- When the looked-up name is not among the entry names the lookup
fails. -/
theorem lookupCh_not_found : ∀ (cs : List (String × FSTree)) (n : String)
    (rest : List String), cs.any (fun e => e.1 == n) = false →
    lookupCh cs n rest = none := by
  intro cs n rest h
  induction cs with
  | nil => rfl
  | cons e cs ih =>
    cases e with
    | mk k sub =>
      simp only [List.any_cons, Bool.or_eq_false_iff] at h
      show lookupCh ((k, sub) :: cs) n rest = none
      unfold lookupCh
      rw [if_neg (by simpa using h.1)]
      exact ih h.2

/-- A successful entry lookup means the name occurs in the list. -/
theorem lookupCh_found_name : ∀ (cs : List (String × FSTree)) (n : String)
    (rest : List String) (e : FSTree), lookupCh cs n rest = some e →
    cs.any (fun x => x.1 == n) = true := by
  intro cs n rest e h
  induction cs with
  | nil => exact absurd h (by simp [lookupCh])
  | cons x cs ih =>
    cases x with
    | mk k sub =>
      rw [show lookupCh ((k, sub) :: cs) n rest =
        if k = n then lookupT sub rest else lookupCh cs n rest from rfl] at h
      by_cases hk : k = n
      · simp [List.any_cons, hk]
      · rw [if_neg hk] at h
        simp [List.any_cons, ih h]

/-- Unfolded form of `wfC` at a cons. -/
theorem wfC_cons {n : String} {sub : FSTree} {cs : List (String × FSTree)}
    (h : wfC ((n, sub) :: cs) = true) :
    validName n = true ∧ cs.any (fun e => e.1 == n) = false ∧
      wfT sub = true ∧ wfC cs = true := by
  rw [show wfC ((n, sub) :: cs) =
    (validName n && !(cs.any (fun e => e.1 == n)) && wfT sub && wfC cs) from rfl] at h
  simp only [Bool.and_eq_true, Bool.not_eq_true'] at h
  exact ⟨h.1.1.1, h.1.1.2, h.1.2, h.2⟩

/-- Two prefixes of one list with equal lengths are equal. -/
theorem eq_of_both_le {α : Type} {l p1 p2 : List α}
    (h1 : p1 <+: l) (h2 : p2 <+: l) (hlen : p1.length = p2.length) :
    p1 = p2 := by
  rw [List.prefix_iff_eq_take] at h1 h2
  rw [h1, h2, hlen]

/-- A strictly longer list is no prefix. -/
theorem not_prefix_of_longer {α : Type} {p q : List α}
    (h : q.length < p.length) : ¬ p <+: q := by
  intro hp
  exact absurd (hp.length_le) (by omega)

/-- `nodeAt` inversion at a directory shape. -/
theorem nodeAt_dir_inv {t : FSTree} {q : List String} {md : Nat}
    (h : nodeAt t q = some (.dir md)) :
    ∃ cs, lookupT t q = some (.dir md cs) := by
  unfold nodeAt at h
  cases hl : lookupT t q with
  | none => rw [hl] at h; exact absurd h (by simp)
  | some u =>
    rw [hl] at h
    cases u with
    | file c mt m2 => exact absurd h (by simp [shapeOf])
    | dir m2 cs =>
      refine ⟨cs, ?_⟩
      simp [shapeOf] at h
      subst h
      rfl

/-- `nodeAt` inversion at a file shape. -/
theorem nodeAt_file_inv {t : FSTree} {q : List String} {c : String} {mt md : Nat}
    (h : nodeAt t q = some (.file c mt md)) :
    lookupT t q = some (.file c mt md) := by
  unfold nodeAt at h
  cases hl : lookupT t q with
  | none => rw [hl] at h; exact absurd h (by simp)
  | some u =>
    rw [hl] at h
    cases u with
    | dir m2 cs => exact absurd h (by simp [shapeOf])
    | file c2 mt2 md2 =>
      simp [shapeOf] at h
      obtain ⟨rfl, rfl, rfl⟩ := h
      rfl

/-- The node found below a strict chain of fresh directories. -/
theorem freshDirs_nodeAt (perm : Nat) : ∀ (rest q : List String),
    nodeAt (freshDirs perm rest) q =
      if q <+: rest then some (.dir perm) else none := by
  intro rest
  induction rest with
  | nil =>
    intro q
    cases q with
    | nil => rfl
    | cons a q' => simp [freshDirs, nodeAt, lookupT, lookupCh]
  | cons n rest ih =>
    intro q
    cases q with
    | nil => simp [freshDirs, nodeAt, lookupT, shapeOf]
    | cons a q' =>
      show nodeAt (.dir perm [(n, freshDirs perm rest)]) (a :: q') = _
      unfold nodeAt lookupT lookupCh
      by_cases ha : n = a
      · subst ha
        rw [if_pos rfl]
        rw [show (Option.map shapeOf (lookupT (freshDirs perm rest) q')) =
          nodeAt (freshDirs perm rest) q' from rfl, ih q']
        by_cases hq : q' <+: rest
        · rw [if_pos hq, if_pos (by simpa [List.cons_prefix_cons] using hq)]
        · rw [if_neg hq, if_neg (by simp [List.cons_prefix_cons, hq])]
      · rw [if_neg ha]
        rw [if_neg (by simp [List.cons_prefix_cons]; intro h; exact absurd h.symm ha)]
        rfl

/-- Fresh directory chains are well-formed when the names are legal. -/
theorem freshDirs_wf (perm : Nat) : ∀ (rest : List String),
    (∀ x ∈ rest, validName x = true) → wfT (freshDirs perm rest) = true := by
  intro rest
  induction rest with
  | nil => intro _; rfl
  | cons n rest ih =>
    intro h
    show wfC [(n, freshDirs perm rest)] = true
    rw [show wfC [(n, freshDirs perm rest)] =
      (validName n && !(([] : List (String × FSTree)).any (fun e => e.1 == n)) &&
        wfT (freshDirs perm rest) && wfC []) from rfl]
    simp [h n (by simp), ih (fun x hx => h x (by simp [hx])), wfC]

/-- `os.MkdirAll` on an existing directory is a no-op. -/
theorem mkdirAllT_noop : ∀ (t : FSTree) (p : List String) (perm : Nat),
    ∀ m cs, lookupT t p = some (.dir m cs) → mkdirAllT t p perm = some t := by
  intro t p perm
  induction t, p, perm using mkdirAllT.induct with
  | motive_2 cs0 n rest perm =>
    exact ∀ m cs, lookupCh cs0 n rest = some (.dir m cs) → mkdirCh cs0 n rest perm = some cs0
  | case1 m0 cs0 x => intro m cs h; rfl
  | case2 c mt md x => intro m cs h; simp [lookupT] at h
  | case3 c mt md hd tl x => intro m cs h; simp [lookupT] at h
  | case4 m0 cs0 n rest perm hnone ih =>
    intro m cs h
    have h2 : lookupCh cs0 n rest = some (.dir m cs) := h
    rw [ih m cs h2] at hnone
    exact absurd hnone (by simp)
  | case5 m0 cs0 n rest perm cs' hsome ih =>
    intro m cs h
    have h2 : lookupCh cs0 n rest = some (.dir m cs) := h
    show mkdirAllT (.dir m0 cs0) (n :: rest) perm = some (.dir m0 cs0)
    unfold mkdirAllT
    rw [ih m cs h2]
  | case6 n rest perm => intro m cs h; simp [lookupCh] at h
  | case7 sub cs0 n rest perm hnone ih =>
    intro m cs h
    have h2 : lookupT sub rest = some (.dir m cs) := by
      rw [show lookupCh ((n, sub) :: cs0) n rest =
        if n = n then lookupT sub rest else lookupCh cs0 n rest from rfl,
        if_pos rfl] at h
      exact h
    rw [ih m cs h2] at hnone
    exact absurd hnone (by simp)
  | case8 sub cs0 n rest perm sub' hsome ih =>
    intro m cs h
    have h2 : lookupT sub rest = some (.dir m cs) := by
      rw [show lookupCh ((n, sub) :: cs0) n rest =
        if n = n then lookupT sub rest else lookupCh cs0 n rest from rfl,
        if_pos rfl] at h
      exact h
    show mkdirCh ((n, sub) :: cs0) n rest perm = some ((n, sub) :: cs0)
    unfold mkdirCh
    rw [if_pos rfl, ih m cs h2]
  | case9 k sub cs0 n rest perm hne hnone ih =>
    intro m cs h
    have h2 : lookupCh cs0 n rest = some (.dir m cs) := by
      rw [show lookupCh ((k, sub) :: cs0) n rest =
        if k = n then lookupT sub rest else lookupCh cs0 n rest from rfl,
        if_neg hne] at h
      exact h
    rw [ih m cs h2] at hnone
    exact absurd hnone (by simp)
  | case10 k sub cs0 n rest perm hne cs' hsome ih =>
    intro m cs h
    have h2 : lookupCh cs0 n rest = some (.dir m cs) := by
      rw [show lookupCh ((k, sub) :: cs0) n rest =
        if k = n then lookupT sub rest else lookupCh cs0 n rest from rfl,
        if_neg hne] at h
      exact h
    show mkdirCh ((k, sub) :: cs0) n rest perm = some ((k, sub) :: cs0)
    unfold mkdirCh
    rw [if_neg hne, ih m cs h2]

/-! ## Claim C8: the incremental skip rule of `copyFile` -/

/-- C8.  If a file already exists at the destination path with size equal
to the source's size and modification time equal to the source's, then
`copyFile` returns success without copying and leaves the destination tree
unchanged (so the destination file's content, size, modification time and
mode are untouched).  The existing content `c2` is arbitrary — only its
length is constrained — so the skip decision never compares content. -/
theorem c8_copyFile_skip_equal_size_mtime (content : String) (mtime mode : Nat)
    (dst : FSTree) (p : List String) (c2 : String) (mt2 md2 : Nat)
    (hne : p ≠ [])
    (hp : lookupT dst p = some (.file c2 mt2 md2))
    (hsize : c2.length = content.length)
    (hmtime : mt2 = mtime) :
    copyFile content mtime mode dst p = some (dst, false) := by
  obtain ⟨m, cs, hpar⟩ := lookup_parent_dir hne hp
  have h1 : mkdirAllT dst p.dropLast 0o755 = some dst :=
    mkdirAllT_noop dst p.dropLast 0o755 m cs hpar
  unfold copyFile
  simp only [h1, hp]
  rw [if_pos ⟨hsize, hmtime⟩]

/-- Witness for C8 at a concrete input: the destination file has different
content ("ab" vs "xy") but equal size and mtime, and is left untouched. -/
theorem c8_copyFile_skip_equal_size_mtime_witness :
    copyFile "xy" 5 6 (.dir 7 [("f", .file "ab" 5 1)]) ["f"] =
      some (.dir 7 [("f", .file "ab" 5 1)], false) :=
  c8_copyFile_skip_equal_size_mtime "xy" 5 6 (.dir 7 [("f", .file "ab" 5 1)])
    ["f"] "ab" 5 1 (by decide) rfl rfl rfl

/-! ## Claim C10: the orphan deletion list has no nested paths -/

/-- Structure of the orphan scan: every collected path extends the current
directory by one of its entry names, and no collected path is a prefix of
another. -/
theorem collect_struct (v : List (List String)) : ∀ (rel : List String) (t : FSTree),
    wfT t = true →
    (∀ x ∈ collectT v rel t, ∃ name, (rel ++ [name]) <+: x) ∧
    (∀ p q, p ∈ collectT v rel t → q ∈ collectT v rel t → p ≠ q → ¬ p <+: q) := by
  intro rel t
  induction rel, t using collectT.induct with
  | valid => exact v
  | motive_2 rel cs =>
    exact wfC cs = true →
      (∀ x ∈ collectL v rel cs,
        ∃ name, cs.any (fun e => e.1 == name) = true ∧ (rel ++ [name]) <+: x) ∧
      (∀ p q, p ∈ collectL v rel cs → q ∈ collectL v rel cs → p ≠ q → ¬ p <+: q)
  | case1 rel c mt md =>
    intro _
    constructor
    · intro x hx; simp [collectT] at hx
    · intro p q hp hq; simp [collectT] at hp
  | case2 rel m cs ih =>
    intro hw
    have h2 := ih hw
    constructor
    · intro x hx
      obtain ⟨name, _, hpre⟩ := h2.1 x hx
      exact ⟨name, hpre⟩
    · exact h2.2
  | case3 rel =>
    intro _
    constructor
    · intro x hx; simp [collectL] at hx
    · intro p q hp hq; simp [collectL] at hp
  | case4 rel n sub cs ih1 ih2 =>
    intro hw
    obtain ⟨hvn, hdup, hwsub, hwcs⟩ := wfC_cons hw
    have hsub := ih1 hwsub
    have hcs := ih2 hwcs
    have hmemH : ∀ x, x ∈ (if (rel ++ [n]) ∈ v then collectT v (rel ++ [n]) sub
        else [rel ++ [n]]) → (rel ++ [n]) <+: x := by
      intro x hx
      by_cases hv : (rel ++ [n]) ∈ v
      · rw [if_pos hv] at hx
        obtain ⟨name2, hpre⟩ := hsub.1 x hx
        exact List.IsPrefix.trans (List.prefix_append _ _) hpre
      · rw [if_neg hv] at hx
        simp at hx
        subst hx
        exact List.prefix_rfl
    have hmemT : ∀ x, x ∈ collectL v rel cs →
        ∃ name2, cs.any (fun e => e.1 == name2) = true ∧ (rel ++ [name2]) <+: x :=
      fun x hx => hcs.1 x hx
    have hcross : ∀ p q,
        p ∈ (if (rel ++ [n]) ∈ v then collectT v (rel ++ [n]) sub else [rel ++ [n]]) →
        q ∈ collectL v rel cs → ¬ p <+: q := by
      intro p q hp hq hpq
      obtain ⟨name2, hany, hpre2⟩ := hmemT q hq
      have hne2 : name2 ≠ n := by
        intro heq
        subst heq
        rw [hany] at hdup
        exact absurd hdup (by simp)
      have hpre1 : (rel ++ [n]) <+: q := List.IsPrefix.trans (hmemH p hp) hpq
      have : rel ++ [n] = rel ++ [name2] :=
        eq_of_both_le hpre1 hpre2 (by simp)
      have := List.append_cancel_left this
      simp at this
      exact absurd this.symm hne2
    show (∀ x ∈ collectL v rel ((n, sub) :: cs), ∃ name,
        ((n, sub) :: cs).any (fun e => e.1 == name) = true ∧ (rel ++ [name]) <+: x) ∧ _
    constructor
    · intro x hx
      rw [show collectL v rel ((n, sub) :: cs) =
        (if (rel ++ [n]) ∈ v then collectT v (rel ++ [n]) sub else [rel ++ [n]]) ++
          collectL v rel cs from rfl] at hx
      rcases List.mem_append.mp hx with hx | hx
      · exact ⟨n, by simp, hmemH x hx⟩
      · obtain ⟨name2, hany, hpre⟩ := hmemT x hx
        exact ⟨name2, by simp [List.any_cons, hany], hpre⟩
    · intro p q hp hq hne hpq
      rw [show collectL v rel ((n, sub) :: cs) =
        (if (rel ++ [n]) ∈ v then collectT v (rel ++ [n]) sub else [rel ++ [n]]) ++
          collectL v rel cs from rfl] at hp hq
      rcases List.mem_append.mp hp with hp2 | hp2 <;>
        rcases List.mem_append.mp hq with hq2 | hq2
      · by_cases hv : (rel ++ [n]) ∈ v
        · rw [if_pos hv] at hp2 hq2
          exact hsub.2 p q hp2 hq2 hne hpq
        · rw [if_neg hv] at hp2 hq2
          simp at hp2 hq2
          exact hne (hp2.trans hq2.symm)
      · exact hcross p q hp2 hq2 hpq
      · obtain ⟨name2, hany, hpre2⟩ := hmemT p hp2
        have hne2 : name2 ≠ n := by
          intro heq
          subst heq
          rw [hany] at hdup
          exact absurd hdup (by simp)
        have hpre1 : (rel ++ [n]) <+: q := hmemH q hq2
        have hpre2b : (rel ++ [name2]) <+: q := List.IsPrefix.trans hpre2 hpq
        have : rel ++ [n] = rel ++ [name2] :=
          eq_of_both_le hpre1 hpre2b (by simp)
        have := List.append_cancel_left this
        simp at this
        exact absurd this.symm hne2
      · exact hcs.2 p q hp2 hq2 hne hpq

/-- C10.  After the destination scan of `cleanOrphans` completes, no path
on the deletion list is a strict descendant of another path on the list
(marking a directory prunes the traversal beneath it), so each orphan
subtree is removed by a single recursive removal at its topmost orphaned
path. -/
theorem c10_deletion_list_no_nested (v : List (List String)) (t : FSTree)
    (hw : wfT t = true) :
    ∀ p q, p ∈ collectT v [] t → q ∈ collectT v [] t → p ≠ q → ¬ p <+: q :=
  (collect_struct v [] t hw).2

/-- Witness for C10 at a concrete destination: two sibling orphans, neither
a descendant of the other. -/
theorem c10_deletion_list_no_nested_witness :
    ¬ (["a"] : List String) <+: ["b"] :=
  c10_deletion_list_no_nested [] (.dir 7 [("a", .dir 5 [("x", .file "" 0 0)]), ("b", .file "" 0 0)])
    (by decide) ["a"] ["b"] (by decide) (by decide) (by decide)

/-! ## Frame lemmas for the destination operations -/

/-- One step of `removeCh` when the head entry is the target. -/
theorem removeCh_cons_hit (n : String) (sub : FSTree) (cs : List (String × FSTree))
    (rest : List String) :
    removeCh ((n, sub) :: cs) n rest =
      match rest with
      | [] => cs
      | _ :: _ => (n, removeAllT sub rest) :: cs := by
  conv_lhs => unfold removeCh
  rw [if_pos rfl]

/-- One step of `removeCh` when the head entry is not the target. -/
theorem removeCh_cons_miss {k n : String} (sub : FSTree) (cs : List (String × FSTree))
    (rest : List String) (hne : ¬k = n) :
    removeCh ((k, sub) :: cs) n rest = (k, sub) :: removeCh cs n rest := by
  conv_lhs => unfold removeCh
  rw [if_neg hne]

/-- One step of `lookupCh` at a cons. -/
theorem lookupCh_cons (k : String) (sub : FSTree) (cs : List (String × FSTree))
    (n : String) (rest : List String) :
    lookupCh ((k, sub) :: cs) n rest =
      if k = n then lookupT sub rest else lookupCh cs n rest := rfl

/-- `os.RemoveAll` at a nonempty path removes exactly the subtree below
that path: every other node keeps its data, and well-formedness is
preserved. -/
theorem removeAllT_frame : ∀ (t : FSTree) (p : List String), wfT t = true → p ≠ [] →
    wfT (removeAllT t p) = true ∧
    ∀ q, nodeAt (removeAllT t p) q = if p <+: q then none else nodeAt t q := by
  intro t p
  induction t, p using removeAllT.induct with
  | motive_2 cs n rest =>
    exact wfC cs = true →
      wfC (removeCh cs n rest) = true ∧
      (∀ m2, (removeCh cs n rest).any (fun e => e.1 == m2) = true →
        cs.any (fun e => e.1 == m2) = true) ∧
      ∀ k q', (lookupCh (removeCh cs n rest) k q').map shapeOf =
        if (n :: rest) <+: (k :: q') then none else (lookupCh cs k q').map shapeOf
  | case1 t => intro _ hne; exact absurd rfl hne
  | case2 c mt md hd tl =>
    intro _ _
    refine ⟨rfl, ?_⟩
    intro q
    cases q with
    | nil =>
      rw [if_neg (by intro h; exact absurd (List.IsPrefix.length_le h) (by simp))]
      rfl
    | cons a q' =>
      rw [show nodeAt (removeAllT (.file c mt md) (hd :: tl)) (a :: q') = none from rfl]
      split <;> rfl
  | case3 m cs n rest ih =>
    intro hw hne
    obtain ⟨hw2, _, hlook⟩ := ih hw
    refine ⟨hw2, ?_⟩
    intro q
    cases q with
    | nil =>
      rw [if_neg (by intro h; exact absurd (List.IsPrefix.length_le h) (by simp))]
      rfl
    | cons k q' =>
      show (lookupCh (removeCh cs n rest) k q').map shapeOf = _
      exact hlook k q'
  | case4 x x1 =>
    intro _
    refine ⟨rfl, fun m2 h => h, ?_⟩
    intro k q'
    rw [show removeCh [] x x1 = [] from rfl]
    split <;> rfl
  | case5 sub cs n =>
    intro hw
    obtain ⟨hvn, hdup, hwsub, hwcs⟩ := wfC_cons hw
    rw [removeCh_cons_hit]
    refine ⟨hwcs, ?_, ?_⟩
    · intro m2 h
      simp [List.any_cons, h]
    · intro k q'
      by_cases hk : n = k
      · subst hk
        rw [if_pos (by simp [List.cons_prefix_cons])]
        rw [lookupCh_not_found cs n q' hdup]
        rfl
      · rw [if_neg (by simp [List.cons_prefix_cons]; intro h; exact absurd h hk)]
        rw [lookupCh_cons, if_neg hk]
  | case6 sub cs n hd tl ih =>
    intro hw
    obtain ⟨hvn, hdup, hwsub, hwcs⟩ := wfC_cons hw
    obtain ⟨hw2, hframe⟩ := ih hwsub (by simp)
    rw [removeCh_cons_hit]
    refine ⟨?_, ?_, ?_⟩
    · show wfC ((n, removeAllT sub (hd :: tl)) :: cs) = true
      rw [show wfC ((n, removeAllT sub (hd :: tl)) :: cs) =
        (validName n && !(cs.any (fun e => e.1 == n)) &&
          wfT (removeAllT sub (hd :: tl)) && wfC cs) from rfl]
      simp [hvn, hdup, hw2, hwcs]
    · intro m2 h
      simpa using h
    · intro k q'
      by_cases hk : n = k
      · subst hk
        rw [lookupCh_cons, if_pos rfl, lookupCh_cons, if_pos rfl]
        rw [show (lookupT (removeAllT sub (hd :: tl)) q').map shapeOf =
          nodeAt (removeAllT sub (hd :: tl)) q' from rfl, hframe q']
        by_cases hq : (hd :: tl) <+: q'
        · rw [if_pos hq, if_pos (by simp [List.cons_prefix_cons, hq])]
        · rw [if_neg hq, if_neg (by simp [List.cons_prefix_cons, hq])]
          rfl
      · rw [lookupCh_cons, if_neg hk, lookupCh_cons, if_neg hk]
        rw [if_neg (by simp [List.cons_prefix_cons]; intro h; exact absurd h hk)]
  | case7 k0 sub cs n rest hne ih =>
    intro hw
    obtain ⟨hvn, hdup, hwsub, hwcs⟩ := wfC_cons hw
    obtain ⟨hw2, hsubset, hlook⟩ := ih hwcs
    rw [removeCh_cons_miss sub cs rest hne]
    refine ⟨?_, ?_, ?_⟩
    · show wfC ((k0, sub) :: removeCh cs n rest) = true
      rw [show wfC ((k0, sub) :: removeCh cs n rest) =
        (validName k0 && !((removeCh cs n rest).any (fun e => e.1 == k0)) &&
          wfT sub && wfC (removeCh cs n rest)) from rfl]
      have hk0 : (removeCh cs n rest).any (fun e => e.1 == k0) = false := by
        cases hx : (removeCh cs n rest).any (fun e => e.1 == k0)
        · rfl
        · rw [hsubset k0 hx] at hdup
          exact absurd hdup (by simp)
      simp [hvn, hk0, hwsub, hw2]
    · intro m2 h
      simp only [List.any_cons, Bool.or_eq_true] at h ⊢
      rcases h with h2 | h2
      · exact Or.inl h2
      · exact Or.inr (hsubset m2 h2)
    · intro k q'
      by_cases hk : k0 = k
      · subst hk
        rw [lookupCh_cons, if_pos rfl, lookupCh_cons, if_pos rfl]
        rw [if_neg (by simp [List.cons_prefix_cons]; intro h; exact absurd h.symm hne)]
      · rw [lookupCh_cons, if_neg hk, lookupCh_cons, if_neg hk]
        exact hlook k q'

/-- Deleting a list of nonempty paths in order removes exactly the union of
their subtrees. -/
theorem foldl_removeAll : ∀ (L : List (List String)) (t : FSTree),
    wfT t = true → (∀ p ∈ L, p ≠ []) →
    wfT (L.foldl removeAllT t) = true ∧
    ∀ q, nodeAt (L.foldl removeAllT t) q =
      if ∃ p ∈ L, p <+: q then none else nodeAt t q := by
  intro L
  induction L with
  | nil =>
    intro t hw _
    refine ⟨hw, ?_⟩
    intro q
    rw [if_neg (by rintro ⟨p, hp, _⟩; simp at hp)]
    rfl
  | cons p L ih =>
    intro t hw hne
    obtain ⟨hw1, hf1⟩ := removeAllT_frame t p hw (hne p (by simp))
    obtain ⟨hw2, hf2⟩ := ih (removeAllT t p) hw1 (fun x hx => hne x (by simp [hx]))
    refine ⟨hw2, ?_⟩
    intro q
    show nodeAt (L.foldl removeAllT (removeAllT t p)) q = _
    rw [hf2 q, hf1 q]
    by_cases h1 : ∃ x ∈ L, x <+: q
    · rw [if_pos h1, if_pos ?_]
      obtain ⟨x, hx, hxq⟩ := h1
      exact ⟨x, by simp [hx], hxq⟩
    · rw [if_neg h1]
      by_cases h2 : p <+: q
      · rw [if_pos h2, if_pos ⟨p, by simp, h2⟩]
      · rw [if_neg h2, if_neg ?_]
        rintro ⟨x, hx, hxq⟩
        rcases List.mem_cons.mp hx with rfl | hx2
        · exact h2 hxq
        · exact h1 ⟨x, hx2, hxq⟩

/-- Every path the orphan scan collects is outside the valid set. -/
theorem collect_not_valid (v : List (List String)) : ∀ (rel : List String) (t : FSTree),
    ∀ x ∈ collectT v rel t, x ∉ v := by
  intro rel t
  induction rel, t using collectT.induct with
  | valid => exact v
  | motive_2 rel cs => exact ∀ x ∈ collectL v rel cs, x ∉ v
  | case1 rel c mt md => intro x hx; simp [collectT] at hx
  | case2 rel m cs ih => exact ih
  | case3 rel => intro x hx; simp [collectL] at hx
  | case4 rel n sub cs ih1 ih2 =>
    intro x hx
    rw [show collectL v rel ((n, sub) :: cs) =
      (if (rel ++ [n]) ∈ v then collectT v (rel ++ [n]) sub else [rel ++ [n]]) ++
        collectL v rel cs from rfl] at hx
    rcases List.mem_append.mp hx with hx2 | hx2
    · by_cases hv : (rel ++ [n]) ∈ v
      · rw [if_pos hv] at hx2
        exact ih1 x hx2
      · rw [if_neg hv] at hx2
        simp at hx2
        subst hx2
        exact hv
    · exact ih2 x hx2

/-- Every existing non-valid path has a collected ancestor (or is itself
collected): the completeness of the orphan scan. -/
theorem collect_complete (v : List (List String)) : ∀ (rel : List String) (t : FSTree),
    wfT t = true → ∀ q, q ≠ [] → (lookupT t q).isSome → (rel ++ q) ∉ v →
    ∃ p ∈ collectT v rel t, p <+: rel ++ q := by
  intro rel t
  induction rel, t using collectT.induct with
  | valid => exact v
  | motive_2 rel cs =>
    exact wfC cs = true → ∀ n q', (lookupCh cs n q').isSome →
      (rel ++ n :: q') ∉ v → ∃ p ∈ collectL v rel cs, p <+: rel ++ n :: q'
  | case1 rel c mt md =>
    intro _ q hq hs _
    cases q with
    | nil => exact absurd rfl hq
    | cons a q' => simp [lookupT] at hs
  | case2 rel m cs ih =>
    intro hw q hq hs hnv
    cases q with
    | nil => exact absurd rfl hq
    | cons a q' => exact ih hw a q' hs hnv
  | case3 rel =>
    intro _ n q' hs _
    simp [lookupCh] at hs
  | case4 rel n sub cs ih1 ih2 =>
    intro hw n0 q' hs hnv
    obtain ⟨hvn, hdup, hwsub, hwcs⟩ := wfC_cons hw
    rw [show collectL v rel ((n, sub) :: cs) =
      (if (rel ++ [n]) ∈ v then collectT v (rel ++ [n]) sub else [rel ++ [n]]) ++
        collectL v rel cs from rfl]
    rw [lookupCh_cons] at hs
    by_cases hk : n = n0
    · subst hk
      rw [if_pos rfl] at hs
      by_cases hv : (rel ++ [n]) ∈ v
      · cases q' with
        | nil => exact absurd hv (by simpa using hnv)
        | cons b q2 =>
          have hnv2 : ((rel ++ [n]) ++ (b :: q2)) ∉ v := by
            simpa using hnv
          obtain ⟨p, hp, hpre⟩ := ih1 hwsub (b :: q2) (by simp) hs hnv2
          refine ⟨p, ?_, ?_⟩
          · rw [if_pos hv]
            exact List.mem_append_left _ hp
          · simpa using hpre
      · refine ⟨rel ++ [n], ?_, ?_⟩
        · rw [if_neg hv]
          simp
        · rw [show rel ++ n :: q' = (rel ++ [n]) ++ q' by simp]
          exact List.prefix_append _ _
    · rw [if_neg hk] at hs
      obtain ⟨p, hp, hpre⟩ := ih2 hwcs n0 q' hs hnv
      exact ⟨p, List.mem_append_right _ hp, hpre⟩

/-- Collected orphan paths are nonempty. -/
theorem collect_ne_nil (v : List (List String)) (t : FSTree) (hw : wfT t = true) :
    ∀ p ∈ collectT v [] t, p ≠ [] := by
  intro p hp
  obtain ⟨name, hpre⟩ := (collect_struct v [] t hw).1 p hp
  intro hnil
  subst hnil
  exact absurd (List.IsPrefix.length_le hpre) (by simp)

/-- Specification of `cleanOrphans`: with an ancestor-closed valid set,
every valid path keeps its node untouched, and every other nonempty path is
gone. -/
theorem cleanOrphans_spec (t : FSTree) (v : List (List String))
    (hw : wfT t = true) (hac : ancClosed v) :
    wfT (cleanOrphans t v) = true ∧
    ∀ q, q ≠ [] →
      nodeAt (cleanOrphans t v) q = if q ∈ v then nodeAt t q else none := by
  have hne := collect_ne_nil v t hw
  obtain ⟨hwf, hframe⟩ := foldl_removeAll (collectT v [] t) t hw hne
  refine ⟨hwf, ?_⟩
  intro q hq
  show nodeAt ((collectT v [] t).foldl removeAllT t) q = _
  rw [hframe q]
  by_cases hv : q ∈ v
  · rw [if_pos hv, if_neg ?_]
    rintro ⟨p, hp, hpq⟩
    exact collect_not_valid v [] t p hp (hac q hv p (hne p hp) hpq)
  · rw [if_neg hv]
    cases hs : (lookupT t q).isSome
    · have h0 : nodeAt t q = none := by
        unfold nodeAt
        cases hl : lookupT t q
        · rfl
        · rw [hl] at hs; simp at hs
      split <;> simp [h0]
    · obtain ⟨p, hp, hpq⟩ := collect_complete v [] t hw q hq hs (by simpa using hv)
      rw [if_pos ⟨p, hp, by simpa using hpq⟩]

/-- When every existing nonempty path is valid, the orphan scan collects
nothing. -/
theorem collect_empty (v : List (List String)) : ∀ (rel : List String) (t : FSTree),
    wfT t = true → (∀ q, q ≠ [] → (lookupT t q).isSome → (rel ++ q) ∈ v) →
    collectT v rel t = [] := by
  intro rel t
  induction rel, t using collectT.induct with
  | valid => exact v
  | motive_2 rel cs =>
    exact wfC cs = true → (∀ n q', (lookupCh cs n q').isSome → (rel ++ n :: q') ∈ v) →
      collectL v rel cs = []
  | case1 rel c mt md => intro _ _; rfl
  | case2 rel m cs ih =>
    intro hw hv
    exact ih hw (fun n q' hs => hv (n :: q') (by simp) hs)
  | case3 rel => intro _ _; rfl
  | case4 rel n sub cs ih1 ih2 =>
    intro hw hv
    obtain ⟨hvn, hdup, hwsub, hwcs⟩ := wfC_cons hw
    have hrv : (rel ++ [n]) ∈ v := by
      refine hv n [] ?_
      rw [lookupCh_cons, if_pos rfl]
      cases sub <;> rfl
    have hsub : collectT v (rel ++ [n]) sub = [] := by
      refine ih1 hwsub ?_
      intro q hq hs
      cases q with
      | nil => exact absurd rfl hq
      | cons b q2 =>
        have := hv n (b :: q2) (by rw [lookupCh_cons, if_pos rfl]; exact hs)
        simpa using this
    have htail : collectL v rel cs = [] := by
      refine ih2 hwcs ?_
      intro n0 q' hs
      by_cases hk : n = n0
      · subst hk
        rw [lookupCh_not_found cs n q' hdup] at hs
        simp at hs
      · refine hv n0 q' ?_
        rw [lookupCh_cons, if_neg hk]
        exact hs
    rw [show collectL v rel ((n, sub) :: cs) =
      (if (rel ++ [n]) ∈ v then collectT v (rel ++ [n]) sub else [rel ++ [n]]) ++
        collectL v rel cs from rfl]
    rw [if_pos hrv, hsub, htail]
    rfl

/-- `cleanOrphans` keeps the root node. -/
theorem cleanOrphans_root (t : FSTree) (v : List (List String)) (hw : wfT t = true) :
    nodeAt (cleanOrphans t v) [] = nodeAt t [] := by
  have hne := collect_ne_nil v t hw
  obtain ⟨_, hframe⟩ := foldl_removeAll (collectT v [] t) t hw hne
  show nodeAt ((collectT v [] t).foldl removeAllT t) [] = _
  rw [hframe []]
  rw [if_neg ?_]
  rintro ⟨p, hp, hpq⟩
  have := List.IsPrefix.length_le hpq
  cases p with
  | nil => exact hne [] hp rfl
  | cons a p' => simp at this

/-- The valid-path set of a successful forward walk does not depend on the
destination: it is `validOf` of the source entries. -/
theorem syncList_valid_eq (pats : List String) : ∀ (rel : List String) (name : String)
    (src dst : FSTree),
    ∀ d v n, syncEntry pats rel name src dst = some (d, v, n) →
      v = validOfE pats rel name src := by
  intro rel name src dst
  induction rel, name, src, dst using syncEntry.induct pats with
  | motive_2 rel cs dst =>
    exact ∀ d v n, syncList pats rel cs dst = some (d, v, n) → v = validOf pats rel cs
  | case1 rel name c mt md dst hexcl =>
    intro d v n h
    rw [show syncEntry pats rel name (.file c mt md) dst =
      some (dst, [], 0) from by unfold syncEntry; rw [if_pos hexcl]] at h
    injection h with h2
    injection h2 with _ h3
    injection h3 with h4 _
    rw [← h4]
    unfold validOfE
    rw [if_pos hexcl]
  | case2 rel name c mt md dst hexcl hcopy =>
    intro d v n h
    rw [show syncEntry pats rel name (.file c mt md) dst = none from by
      unfold syncEntry; rw [if_neg hexcl, hcopy]] at h
    exact absurd h (by simp)
  | case3 rel name c mt md dst hexcl d1 copied hcopy =>
    intro d v n h
    rw [show syncEntry pats rel name (.file c mt md) dst =
      some (d1, [rel ++ [name]], if copied then 1 else 0) from by
      unfold syncEntry; rw [if_neg hexcl, hcopy]] at h
    injection h with h2
    injection h2 with _ h3
    injection h3 with h4 _
    rw [← h4]
    unfold validOfE
    rw [if_neg hexcl]
  | case4 rel name m cs dst hexcl =>
    intro d v n h
    rw [show syncEntry pats rel name (.dir m cs) dst =
      some (dst, [], 0) from by unfold syncEntry; rw [if_pos hexcl]] at h
    injection h with h2
    injection h2 with _ h3
    injection h3 with h4 _
    rw [← h4]
    unfold validOfE
    rw [if_pos hexcl]
  | case5 rel name m cs dst hexcl hmk =>
    intro d v n h
    rw [show syncEntry pats rel name (.dir m cs) dst = none from by
      unfold syncEntry; rw [if_neg hexcl, hmk]] at h
    exact absurd h (by simp)
  | case6 rel name m cs dst hexcl sub' hmk hsync ih =>
    intro d v n h
    rw [show syncEntry pats rel name (.dir m cs) dst = none from by
      unfold syncEntry; rw [if_neg hexcl]; simp only [hmk, hsync]] at h
    exact absurd h (by simp)
  | case7 rel name m cs dst hexcl sub' hmk d2 v2 n2 hsync ih =>
    intro d v n h
    rw [show syncEntry pats rel name (.dir m cs) dst =
      some (d2, (rel ++ [name]) :: v2, n2) from by
      unfold syncEntry; rw [if_neg hexcl]; simp only [hmk, hsync]] at h
    injection h with h2
    injection h2 with _ h3
    injection h3 with h4 _
    rw [← h4]
    unfold validOfE
    rw [if_neg hexcl, ih d2 v2 n2 hsync]
  | case8 rel dst =>
    intro d v n h
    injection h with h2
    injection h2 with _ h3
    injection h3 with h4 _
    rw [← h4]
    rfl
  | case9 rel name sub cs dst hent ih =>
    intro d v n h
    rw [show syncList pats rel ((name, sub) :: cs) dst = none from by
      unfold syncList; rw [hent]] at h
    exact absurd h (by simp)
  | case10 rel name sub cs dst d2 v1 n1 hent hlist ih1 ih2 =>
    intro d v n h
    rw [show syncList pats rel ((name, sub) :: cs) dst = none from by
      unfold syncList; simp only [hent, hlist]] at h
    exact absurd h (by simp)
  | case11 rel name sub cs dst d2 v1 n1 hent d3 v2 n2 hlist ih1 ih2 =>
    intro d v n h
    rw [show syncList pats rel ((name, sub) :: cs) dst =
      some (d3, v1 ++ v2, n1 + n2) from by
      unfold syncList; simp only [hent, hlist]] at h
    injection h with h2
    injection h2 with _ h3
    injection h3 with h4 _
    rw [← h4]
    show v1 ++ v2 = validOfE pats rel name sub ++ validOf pats rel cs
    rw [ih1 d2 v1 n1 hent, ih2 d3 v2 n2 hlist]

/-- The root lookup. -/
theorem lookupT_nil (t : FSTree) : lookupT t [] = some t := by
  cases t <;> rfl

/-- A nonempty prefix of a cons starts with the same head. -/
theorem ne_nil_prefix_cons {α : Type} {s' : List α} {a : α} {s2 : List α}
    (hne : s' ≠ []) (h : s' <+: a :: s2) :
    ∃ t', s' = a :: t' ∧ t' <+: s2 := by
  cases s' with
  | nil => exact absurd rfl hne
  | cons h0 t' =>
    rw [List.cons_prefix_cons] at h
    exact ⟨t', by rw [h.1], h.2⟩

/-- Soundness of the valid-path set: every recorded path extends the
current directory by a nonempty suffix, and every nonempty ancestor within
it resolves to a source entry that is not excluded. -/
theorem validOf_sound (pats : List String) : ∀ (rel : List String)
    (cs : List (String × FSTree)), wfC cs = true →
    ∀ r ∈ validOf pats rel cs, ∃ s,
      r = rel ++ s ∧ s ≠ [] ∧
      ∀ s', s' ≠ [] → s' <+: s → ∃ e, srcAtC cs s' = some e ∧
        shouldExclude (joinPath (rel ++ s')) pats e.isDir = false := by
  intro rel cs
  induction rel, cs using validOf.induct pats with
  | motive_1 rel name src =>
    exact wfT src = true →
      ∀ r ∈ validOfE pats rel name src, ∃ s2,
        r = rel ++ name :: s2 ∧
        shouldExclude (joinPath (rel ++ [name])) pats src.isDir = false ∧
        ∀ s2', s2' ≠ [] → s2' <+: s2 → ∃ e, lookupT src s2' = some e ∧
          shouldExclude (joinPath (rel ++ name :: s2')) pats e.isDir = false
  | case1 rel name c mt md hexcl =>
    intro _ r hr
    rw [show validOfE pats rel name (.file c mt md) = [] from by
      unfold validOfE; rw [if_pos hexcl]] at hr
    simp at hr
  | case2 rel name c mt md hexcl =>
    intro _ r hr
    rw [show validOfE pats rel name (.file c mt md) = [rel ++ [name]] from by
      unfold validOfE; rw [if_neg hexcl]] at hr
    simp at hr
    subst hr
    refine ⟨[], by simp, by simpa using hexcl, ?_⟩
    intro s2' hne hpre
    exact absurd (List.prefix_nil.mp hpre) hne
  | case3 rel name m cs hexcl =>
    intro _ r hr
    rw [show validOfE pats rel name (.dir m cs) = [] from by
      unfold validOfE; rw [if_pos hexcl]] at hr
    simp at hr
  | case4 rel name m cs hexcl ih =>
    intro hw r hr
    rw [show validOfE pats rel name (.dir m cs) =
      (rel ++ [name]) :: validOf pats (rel ++ [name]) cs from by
      unfold validOfE; rw [if_neg hexcl]] at hr
    rcases List.mem_cons.mp hr with rfl | hr2
    · refine ⟨[], by simp, by simpa using hexcl, ?_⟩
      intro s2' hne hpre
      exact absurd (List.prefix_nil.mp hpre) hne
    · obtain ⟨s, hr3, hsne, hchain⟩ := ih hw r hr2
      refine ⟨s, by simp [hr3], by simpa using hexcl, ?_⟩
      intro s2' hne hpre
      obtain ⟨e, hsrc, hex⟩ := hchain s2' hne hpre
      refine ⟨e, ?_, ?_⟩
      · cases s2' with
        | nil => exact absurd rfl hne
        | cons b rest =>
          show lookupCh cs b rest = some e
          exact hsrc
      · rw [show rel ++ name :: s2' = (rel ++ [name]) ++ s2' by simp]
        exact hex
  | case5 rel =>
    intro _ r hr
    rw [show validOf pats rel [] = [] from rfl] at hr
    simp at hr
  | case6 rel n sub cs ih1 ih2 =>
    intro hw r hr
    obtain ⟨hvn, hdup, hwsub, hwcs⟩ := wfC_cons hw
    rw [show validOf pats rel ((n, sub) :: cs) =
      validOfE pats rel n sub ++ validOf pats rel cs from rfl] at hr
    rcases List.mem_append.mp hr with hr2 | hr2
    · obtain ⟨s2, hr3, hx, hchain⟩ := ih1 hwsub r hr2
      refine ⟨n :: s2, hr3, by simp, ?_⟩
      intro s' hne hpre
      obtain ⟨t', rfl, hpre2⟩ := ne_nil_prefix_cons hne hpre
      cases ht' : t' with
      | nil =>
        refine ⟨sub, ?_, ?_⟩
        · show lookupCh ((n, sub) :: cs) n [] = some sub
          rw [lookupCh_cons, if_pos rfl, lookupT_nil]
        · simpa using hx
      | cons b rest =>
        subst ht'
        obtain ⟨e, hsrc, hex⟩ := hchain (b :: rest) (by simp) hpre2
        refine ⟨e, ?_, hex⟩
        show lookupCh ((n, sub) :: cs) n (b :: rest) = some e
        rw [lookupCh_cons, if_pos rfl]
        exact hsrc
    · obtain ⟨s, hr3, hsne, hchain⟩ := ih2 hwcs r hr2
      refine ⟨s, hr3, hsne, ?_⟩
      cases s with
      | nil => exact absurd rfl hsne
      | cons sh st =>
        have hsh : sh ≠ n := by
          obtain ⟨e0, hsrc0, _⟩ := hchain [sh] (by simp)
            (by rw [List.cons_prefix_cons]; exact ⟨rfl, List.nil_prefix⟩)
          intro heq
          subst heq
          have hname := lookupCh_found_name cs sh [] e0 hsrc0
          rw [hname] at hdup
          exact absurd hdup (by simp)
        intro s' hne hpre
        obtain ⟨t', rfl, hpre2⟩ := ne_nil_prefix_cons hne hpre
        obtain ⟨e, hsrc, hex⟩ := hchain (sh :: t') (by simp) hpre
        refine ⟨e, ?_, hex⟩
        show lookupCh ((n, sub) :: cs) sh t' = some e
        rw [lookupCh_cons, if_neg (fun h => hsh h.symm)]
        exact hsrc

/-- Completeness of the valid-path set: a resolvable source path all of
whose nonempty ancestors (itself included) are not excluded is recorded. -/
theorem validOf_complete (pats : List String) : ∀ (rel : List String)
    (cs : List (String × FSTree)), wfC cs = true →
    ∀ s e, srcAtC cs s = some e →
      (∀ s', s' ≠ [] → s' <+: s → ∃ e', srcAtC cs s' = some e' ∧
        shouldExclude (joinPath (rel ++ s')) pats e'.isDir = false) →
      rel ++ s ∈ validOf pats rel cs := by
  intro rel cs
  induction rel, cs using validOf.induct pats with
  | motive_1 rel name src =>
    exact wfT src = true →
      shouldExclude (joinPath (rel ++ [name])) pats src.isDir = false →
      ∀ s2 e, lookupT src s2 = some e →
        (∀ s2', s2' ≠ [] → s2' <+: s2 → ∃ e', lookupT src s2' = some e' ∧
          shouldExclude (joinPath (rel ++ name :: s2')) pats e'.isDir = false) →
        rel ++ name :: s2 ∈ validOfE pats rel name src
  | case1 rel name c mt md hexcl =>
    intro _ hx
    rw [show (FSTree.file c mt md).isDir = false from rfl] at hx
    exact absurd hexcl (by simp [hx])
  | case2 rel name c mt md hexcl =>
    intro _ _ s2 e hs _
    cases s2 with
    | nil =>
      rw [show validOfE pats rel name (.file c mt md) = [rel ++ [name]] from by
        unfold validOfE; rw [if_neg hexcl]]
      simp
    | cons b rest =>
      rw [show lookupT (FSTree.file c mt md) (b :: rest) = none from rfl] at hs
      simp at hs
  | case3 rel name m cs hexcl =>
    intro _ hx
    rw [show (FSTree.dir m cs).isDir = true from rfl] at hx
    exact absurd hexcl (by simp [hx])
  | case4 rel name m cs hexcl ih =>
    intro hw hx s2 e hs hchain
    rw [show validOfE pats rel name (.dir m cs) =
      (rel ++ [name]) :: validOf pats (rel ++ [name]) cs from by
      unfold validOfE; rw [if_neg hexcl]]
    cases s2 with
    | nil => simp
    | cons b rest =>
      have hmem : (rel ++ [name]) ++ (b :: rest) ∈ validOf pats (rel ++ [name]) cs := by
        refine ih hw (b :: rest) e hs ?_
        intro s' hne hpre
        obtain ⟨e', hsrc', hex'⟩ := hchain s' hne hpre
        refine ⟨e', ?_, ?_⟩
        · cases s' with
          | nil => exact absurd rfl hne
          | cons b2 rest2 => exact hsrc'
        · rw [show (rel ++ [name]) ++ s' = rel ++ name :: s' by simp]
          exact hex'
      rw [show rel ++ name :: b :: rest = (rel ++ [name]) ++ (b :: rest) by simp]
      exact List.mem_cons_of_mem _ hmem
  | case5 rel =>
    intro _ s e hs _
    cases s with
    | nil =>
      rw [show srcAtC [] [] = none from rfl] at hs
      simp at hs
    | cons n rest =>
      rw [show srcAtC [] (n :: rest) = none from rfl] at hs
      simp at hs
  | case6 rel n sub cs ih1 ih2 =>
    intro hw s e hs hchain
    obtain ⟨hvn, hdup, hwsub, hwcs⟩ := wfC_cons hw
    rw [show validOf pats rel ((n, sub) :: cs) =
      validOfE pats rel n sub ++ validOf pats rel cs from rfl]
    cases s with
    | nil =>
      rw [show srcAtC ((n, sub) :: cs) [] = none from rfl] at hs
      simp at hs
    | cons n0 rest =>
      rw [show srcAtC ((n, sub) :: cs) (n0 :: rest) =
        lookupCh ((n, sub) :: cs) n0 rest from rfl, lookupCh_cons] at hs
      by_cases hk : n = n0
      · subst hk
        rw [if_pos rfl] at hs
        have hx : shouldExclude (joinPath (rel ++ [n])) pats sub.isDir = false := by
          obtain ⟨e', hsrc', hex'⟩ := hchain [n] (by simp)
            (by rw [List.cons_prefix_cons]; exact ⟨rfl, List.nil_prefix⟩)
          rw [show srcAtC ((n, sub) :: cs) [n] = lookupCh ((n, sub) :: cs) n [] from rfl,
            lookupCh_cons, if_pos rfl, lookupT_nil] at hsrc'
          injection hsrc' with hsrc2
          rw [← hsrc2] at hex'
          exact hex'
        have hmem : rel ++ n :: rest ∈ validOfE pats rel n sub := by
          refine ih1 hwsub hx rest e hs ?_
          intro s2' hne2 hpre2
          obtain ⟨e', hsrc', hex'⟩ := hchain (n :: s2') (by simp)
            (by rw [List.cons_prefix_cons]; exact ⟨rfl, hpre2⟩)
          refine ⟨e', ?_, hex'⟩
          rw [show srcAtC ((n, sub) :: cs) (n :: s2') =
            lookupCh ((n, sub) :: cs) n s2' from rfl, lookupCh_cons, if_pos rfl] at hsrc'
          exact hsrc'
        exact List.mem_append_left _ hmem
      · rw [if_neg hk] at hs
        have hmem : rel ++ n0 :: rest ∈ validOf pats rel cs := by
          refine ih2 hwcs (n0 :: rest) e hs ?_
          intro s' hne2 hpre2
          obtain ⟨t', rfl, hpre3⟩ := ne_nil_prefix_cons hne2 hpre2
          obtain ⟨e', hsrc', hex'⟩ := hchain (n0 :: t') (by simp) hpre2
          refine ⟨e', ?_, hex'⟩
          rw [show srcAtC ((n, sub) :: cs) (n0 :: t') =
            lookupCh ((n, sub) :: cs) n0 t' from rfl, lookupCh_cons, if_neg hk] at hsrc'
          exact hsrc'
        exact List.mem_append_right _ hmem

/-- The valid-path set of the forward phase is ancestor-closed. -/
theorem validOf_ancClosed (pats : List String) (cs : List (String × FSTree))
    (hw : wfC cs = true) : ancClosed (validOf pats [] cs) := by
  intro p hp q hqne hqp
  obtain ⟨s, hps, hsne, hchain⟩ := validOf_sound pats [] cs hw p hp
  rw [List.nil_append] at hps
  subst hps
  obtain ⟨e, hsrc, hex⟩ := hchain q hqne hqp
  have := validOf_complete pats [] cs hw q e hsrc
    (fun s' hne' hpre' => hchain s' hne' (hpre'.trans hqp))
  rwa [List.nil_append] at this
theorem mkdirCh_cons (k : String) (sub : FSTree) (cs : List (String × FSTree))
    (n : String) (rest : List String) (perm : Nat) :
    mkdirCh ((k, sub) :: cs) n rest perm =
      if k = n then
        match mkdirAllT sub rest perm with
        | none => none
        | some sub' => some ((k, sub') :: cs)
      else
        match mkdirCh cs n rest perm with
        | none => none
        | some cs' => some ((k, sub) :: cs') := rfl

theorem writeCh_cons (k : String) (sub : FSTree) (cs : List (String × FSTree))
    (n : String) (rest : List String) (c : String) (mt md : Nat) :
    writeCh ((k, sub) :: cs) n rest c mt md =
      if k = n then
        match rest with
        | [] =>
          match sub with
          | .dir _ _ => none
          | .file _ _ _ => some ((k, .file c mt md) :: cs)
        | _ :: _ =>
          match writeFileT sub rest c mt md with
          | none => none
          | some sub' => some ((k, sub') :: cs)
      else
        match writeCh cs n rest c mt md with
        | none => none
        | some cs' => some ((k, sub) :: cs') := rfl

/-- `os.MkdirAll` on success: well-formedness is preserved (given legal
component names), a directory node stands at the target path, and every
node that already existed keeps its data. -/
theorem mkdirAllT_frame : ∀ (t : FSTree) (p : List String) (perm : Nat),
    wfT t = true → (∀ x ∈ p, validName x = true) →
    ∀ t', mkdirAllT t p perm = some t' →
    wfT t' = true ∧ (∃ mdp, nodeAt t' p = some (NodeS.dir mdp)) ∧
    ∀ q, nodeAt t q ≠ none → nodeAt t' q = nodeAt t q := by
  intro t p perm
  induction t, p, perm using mkdirAllT.induct with
  | motive_2 cs n rest perm =>
    exact wfC cs = true → validName n = true → (∀ x ∈ rest, validName x = true) →
      ∀ cs', mkdirCh cs n rest perm = some cs' →
      wfC cs' = true ∧
      (∀ m2, cs'.any (fun e => e.1 == m2) = true →
        cs.any (fun e => e.1 == m2) = true ∨ m2 = n) ∧
      (∃ mdp, (lookupCh cs' n rest).map shapeOf = some (NodeS.dir mdp)) ∧
      ∀ b qrest, lookupCh cs b qrest ≠ none →
        (lookupCh cs' b qrest).map shapeOf = (lookupCh cs b qrest).map shapeOf
  | case1 mode children x =>
    intro hw _ t' h
    rw [show mkdirAllT (FSTree.dir mode children) [] x =
      some (FSTree.dir mode children) from rfl] at h
    injection h with h2
    subst h2
    refine ⟨hw, ⟨mode, by rw [nodeAt, lookupT_nil]; rfl⟩, fun q _ => rfl⟩
  | case2 c mt md x =>
    intro _ _ t' h
    rw [show mkdirAllT (FSTree.file c mt md) [] x = none from rfl] at h
    simp at h
  | case3 c mt md hd tl x =>
    intro _ _ t' h
    rw [show mkdirAllT (FSTree.file c mt md) (hd :: tl) x = none from rfl] at h
    simp at h
  | case4 m cs n rest perm hnone ih =>
    intro _ _ t' h
    rw [show mkdirAllT (FSTree.dir m cs) (n :: rest) perm =
      (match mkdirCh cs n rest perm with
       | none => none
       | some cs' => some (.dir m cs')) from rfl] at h
    simp only [hnone] at h
    simp at h
  | case5 m cs n rest perm cs0 hch ih =>
    intro hw hnames t' h
    rw [show mkdirAllT (FSTree.dir m cs) (n :: rest) perm =
      (match mkdirCh cs n rest perm with
       | none => none
       | some cs' => some (.dir m cs')) from rfl] at h
    simp only [hch] at h
    injection h with h2
    subst h2
    obtain ⟨hw', hnm, ⟨mdp, hnd⟩, hpres⟩ := ih hw (hnames n (by simp))
      (fun x hx => hnames x (by simp [hx])) cs0 hch
    refine ⟨hw', ⟨mdp, hnd⟩, ?_⟩
    intro q hq
    cases q with
    | nil => rfl
    | cons b qrest =>
      have hq2 : lookupCh cs b qrest ≠ none := by
        intro h0
        exact hq (by show (lookupCh cs b qrest).map shapeOf = none; rw [h0]; rfl)
      exact hpres b qrest hq2
  | case6 n rest perm =>
    intro _ hn hrest cs' h
    rw [show mkdirCh [] n rest perm = some [(n, freshDirs perm rest)] from rfl] at h
    injection h with h2
    subst h2
    refine ⟨?_, ?_, ?_, ?_⟩
    · rw [show wfC [(n, freshDirs perm rest)] =
        (validName n && !(([] : List (String × FSTree)).any (fun e => e.1 == n)) &&
          wfT (freshDirs perm rest) && wfC []) from rfl]
      simp [hn, freshDirs_wf perm rest hrest, wfC]
    · intro m2 hm
      have hm2 : n = m2 := by simpa using hm
      exact Or.inr hm2.symm
    · refine ⟨perm, ?_⟩
      rw [show lookupCh [(n, freshDirs perm rest)] n rest =
        lookupT (freshDirs perm rest) rest from by
        rw [lookupCh_cons, if_pos rfl]]
      have := freshDirs_nodeAt perm rest rest
      rw [if_pos (List.prefix_refl rest)] at this
      exact this
    · intro b qrest hne
      exact absurd rfl hne
  | case7 sub cs n rest perm hnone ih =>
    intro _ _ _ cs' h
    rw [show mkdirCh ((n, sub) :: cs) n rest perm =
      (match mkdirAllT sub rest perm with
       | none => none
       | some sub' => some ((n, sub') :: cs)) from by
      unfold mkdirCh; rw [if_pos rfl]] at h
    simp only [hnone] at h
    simp at h
  | case8 sub cs n rest perm sub' hsub ih =>
    intro hw hn hrest cs' h
    rw [show mkdirCh ((n, sub) :: cs) n rest perm =
      (match mkdirAllT sub rest perm with
       | none => none
       | some sub2 => some ((n, sub2) :: cs)) from by
      unfold mkdirCh; rw [if_pos rfl]] at h
    simp only [hsub] at h
    injection h with h2
    subst h2
    obtain ⟨hvn, hdup, hwsub, hwcs⟩ := wfC_cons hw
    obtain ⟨hwsub', ⟨mdp, hnd⟩, hpres⟩ := ih hwsub hrest sub' hsub
    refine ⟨?_, ?_, ?_, ?_⟩
    · rw [show wfC ((n, sub') :: cs) =
        (validName n && !(cs.any (fun e => e.1 == n)) && wfT sub' && wfC cs) from rfl]
      simp [hvn, hdup, hwsub', hwcs]
    · intro m2 hm
      simp only [List.any_cons] at hm ⊢
      exact Or.inl hm
    · refine ⟨mdp, ?_⟩
      rw [lookupCh_cons, if_pos rfl]
      exact hnd
    · intro b qrest hne
      rw [lookupCh_cons, lookupCh_cons]
      by_cases hb : n = b
      · rw [if_pos hb, if_pos hb]
        subst hb
        rw [lookupCh_cons, if_pos rfl] at hne
        refine hpres qrest ?_
        intro h0
        exact hne (Option.map_eq_none'.mp h0)
      · rw [if_neg hb, if_neg hb]
  | case9 k sub cs n rest perm hkn hnone ih =>
    intro _ _ _ cs' h
    rw [mkdirCh_cons, if_neg hkn] at h
    simp only [hnone] at h
    simp at h
  | case10 k sub cs n rest perm hkn cs1 hch ih =>
    intro hw hn hrest cs' h
    rw [mkdirCh_cons, if_neg hkn] at h
    simp only [hch] at h
    injection h with h2
    subst h2
    obtain ⟨hvk, hkdup, hwsub, hwcs⟩ := wfC_cons hw
    obtain ⟨hw1, hnm1, ⟨mdp, hnd⟩, hpres1⟩ := ih hwcs hn hrest cs1 hch
    have hkcs1 : cs1.any (fun e => e.1 == k) = false := by
      cases hca : cs1.any (fun e => e.1 == k)
      · rfl
      · rcases hnm1 k hca with hc | hc
        · rw [hc] at hkdup; exact absurd hkdup (by simp)
        · exact absurd hc hkn
    refine ⟨?_, ?_, ?_, ?_⟩
    · rw [show wfC ((k, sub) :: cs1) =
        (validName k && !(cs1.any (fun e => e.1 == k)) && wfT sub && wfC cs1) from rfl]
      simp [hvk, hkcs1, hwsub, hw1]
    · intro m2 hm
      simp only [List.any_cons] at hm ⊢
      rcases Bool.or_eq_true_iff.mp hm with hc | hc
      · exact Or.inl (by rw [Bool.or_eq_true_iff]; exact Or.inl hc)
      · rcases hnm1 m2 hc with hc2 | hc2
        · exact Or.inl (by rw [Bool.or_eq_true_iff]; exact Or.inr hc2)
        · exact Or.inr hc2
    · refine ⟨mdp, ?_⟩
      rw [lookupCh_cons, if_neg hkn]
      exact hnd
    · intro b qrest hne
      rw [lookupCh_cons, lookupCh_cons]
      by_cases hb : k = b
      · rw [if_pos hb, if_pos hb]
      · rw [if_neg hb, if_neg hb]
        rw [lookupCh_cons, if_neg hb] at hne
        exact hpres1 b qrest hne

/-- The `OpenFile`/`io.Copy`/`Chtimes` sequence on success: well-formedness
is preserved, the written file stands at the target path with the source
content and modification time, and every other path keeps its node. -/
theorem writeFileT_frame : ∀ (t : FSTree) (p : List String) (c : String) (mt md : Nat),
    wfT t = true → (∀ x ∈ p, validName x = true) →
    ∀ t', writeFileT t p c mt md = some t' →
    wfT t' = true ∧ nodeAt t' p = some (NodeS.file c mt md) ∧
    ∀ q, q ≠ p → nodeAt t' q = nodeAt t q := by
  intro t p c mt md
  induction t, p, c, mt, md using writeFileT.induct with
  | motive_2 cs n rest c mt md =>
    exact wfC cs = true → validName n = true → (∀ x ∈ rest, validName x = true) →
      ∀ cs', writeCh cs n rest c mt md = some cs' →
      wfC cs' = true ∧
      (∀ m2, cs'.any (fun e => e.1 == m2) = true →
        cs.any (fun e => e.1 == m2) = true ∨ m2 = n) ∧
      (lookupCh cs' n rest).map shapeOf = some (NodeS.file c mt md) ∧
      ∀ b qrest, (b :: qrest) ≠ (n :: rest) →
        (lookupCh cs' b qrest).map shapeOf = (lookupCh cs b qrest).map shapeOf
  | case1 t x x1 x2 =>
    intro _ _ t' h
    rw [show writeFileT t [] x x1 x2 = none from by cases t <;> rfl] at h
    simp at h
  | case2 content mtime mode hd tl x x1 x2 =>
    intro _ _ t' h
    rw [show writeFileT (FSTree.file content mtime mode) (hd :: tl) x x1 x2 =
      none from rfl] at h
    simp at h
  | case3 m cs n rest c0 mt0 md0 hnone ih =>
    intro _ _ t' h
    rw [show writeFileT (FSTree.dir m cs) (n :: rest) c0 mt0 md0 =
      (match writeCh cs n rest c0 mt0 md0 with
       | none => none
       | some cs' => some (.dir m cs')) from rfl] at h
    simp only [hnone] at h
    simp at h
  | case4 m cs n rest c0 mt0 md0 cs0 hch ih =>
    intro hw hnames t' h
    rw [show writeFileT (FSTree.dir m cs) (n :: rest) c0 mt0 md0 =
      (match writeCh cs n rest c0 mt0 md0 with
       | none => none
       | some cs' => some (.dir m cs')) from rfl] at h
    simp only [hch] at h
    injection h with h2
    subst h2
    obtain ⟨hw', hnm, hnd, hpres⟩ := ih hw (hnames n (by simp))
      (fun x hx => hnames x (by simp [hx])) cs0 hch
    refine ⟨hw', hnd, ?_⟩
    intro q hq
    cases q with
    | nil => rfl
    | cons b qrest => exact hpres b qrest hq
  | case5 n c0 mt0 md0 =>
    intro _ hn _ cs' h
    rw [show writeCh [] n [] c0 mt0 md0 =
      some [(n, .file c0 mt0 md0)] from rfl] at h
    injection h with h2
    subst h2
    refine ⟨?_, ?_, ?_, ?_⟩
    · rw [show wfC [(n, FSTree.file c0 mt0 md0)] =
        (validName n && !(([] : List (String × FSTree)).any (fun e => e.1 == n)) &&
          wfT (.file c0 mt0 md0) && wfC []) from rfl]
      simp [hn, wfT, wfC]
    · intro m2 hm
      have hm2 : n = m2 := by simpa using hm
      exact Or.inr hm2.symm
    · rw [show lookupCh [(n, FSTree.file c0 mt0 md0)] n [] =
        some (.file c0 mt0 md0) from by rw [lookupCh_cons, if_pos rfl, lookupT_nil]]
      rfl
    · intro b qrest hne
      rw [lookupCh_cons]
      by_cases hb : n = b
      · rw [if_pos hb]
        subst hb
        cases qrest with
        | nil => exact absurd rfl hne
        | cons x xs => rfl
      · rw [if_neg hb]
  | case6 x hd tl x1 x2 x3 =>
    intro _ _ _ cs' h
    rw [show writeCh [] x (hd :: tl) x1 x2 x3 = none from rfl] at h
    simp at h
  | case7 cs n c0 mt0 md0 mode children =>
    intro _ _ _ cs' h
    rw [show writeCh ((n, FSTree.dir mode children) :: cs) n [] c0 mt0 md0 =
      none from by unfold writeCh; rw [if_pos rfl]] at h
    simp at h
  | case8 cs n c0 mt0 md0 content mtime mode =>
    intro hw _ _ cs' h
    rw [show writeCh ((n, FSTree.file content mtime mode) :: cs) n [] c0 mt0 md0 =
      some ((n, .file c0 mt0 md0) :: cs) from by
      unfold writeCh; rw [if_pos rfl]] at h
    injection h with h2
    subst h2
    obtain ⟨hvn, hdup, _, hwcs⟩ := wfC_cons hw
    refine ⟨?_, ?_, ?_, ?_⟩
    · rw [show wfC ((n, FSTree.file c0 mt0 md0) :: cs) =
        (validName n && !(cs.any (fun e => e.1 == n)) &&
          wfT (.file c0 mt0 md0) && wfC cs) from rfl]
      simp [hvn, hdup, hwcs, wfT]
    · intro m2 hm
      simp only [List.any_cons] at hm ⊢
      exact Or.inl hm
    · rw [lookupCh_cons, if_pos rfl, lookupT_nil]
      rfl
    · intro b qrest hne
      rw [lookupCh_cons, lookupCh_cons]
      by_cases hb : n = b
      · rw [if_pos hb, if_pos hb]
        subst hb
        cases qrest with
        | nil => exact absurd rfl hne
        | cons x xs => rfl
      · rw [if_neg hb, if_neg hb]
  | case9 sub cs n c0 mt0 md0 hd tl hnone ih =>
    intro _ _ _ cs' h
    rw [show writeCh ((n, sub) :: cs) n (hd :: tl) c0 mt0 md0 =
      (match writeFileT sub (hd :: tl) c0 mt0 md0 with
       | none => none
       | some sub' => some ((n, sub') :: cs)) from by
      unfold writeCh; rw [if_pos rfl]] at h
    simp only [hnone] at h
    simp at h
  | case10 sub cs n c0 mt0 md0 hd tl sub' hsub ih =>
    intro hw hn hrest cs' h
    rw [show writeCh ((n, sub) :: cs) n (hd :: tl) c0 mt0 md0 =
      (match writeFileT sub (hd :: tl) c0 mt0 md0 with
       | none => none
       | some sub2 => some ((n, sub2) :: cs)) from by
      unfold writeCh; rw [if_pos rfl]] at h
    simp only [hsub] at h
    injection h with h2
    subst h2
    obtain ⟨hvn, hdup, hwsub, hwcs⟩ := wfC_cons hw
    obtain ⟨hwsub', hnd, hpres⟩ := ih hwsub hrest sub' hsub
    refine ⟨?_, ?_, ?_, ?_⟩
    · rw [show wfC ((n, sub') :: cs) =
        (validName n && !(cs.any (fun e => e.1 == n)) && wfT sub' && wfC cs) from rfl]
      simp [hvn, hdup, hwsub', hwcs]
    · intro m2 hm
      simp only [List.any_cons] at hm ⊢
      exact Or.inl hm
    · rw [lookupCh_cons, if_pos rfl]
      exact hnd
    · intro b qrest hne
      rw [lookupCh_cons, lookupCh_cons]
      by_cases hb : n = b
      · rw [if_pos hb, if_pos hb]
        subst hb
        refine hpres qrest ?_
        intro h0
        exact hne (by rw [h0])
      · rw [if_neg hb, if_neg hb]
  | case11 k sub cs n rest c0 mt0 md0 hkn hnone ih =>
    intro _ _ _ cs' h
    rw [writeCh_cons, if_neg hkn] at h
    simp only [hnone] at h
    simp at h
  | case12 k sub cs n rest c0 mt0 md0 hkn cs1 hch ih =>
    intro hw hn hrest cs' h
    rw [writeCh_cons, if_neg hkn] at h
    simp only [hch] at h
    injection h with h2
    subst h2
    obtain ⟨hvk, hkdup, hwsub, hwcs⟩ := wfC_cons hw
    obtain ⟨hw1, hnm1, hnd, hpres1⟩ := ih hwcs hn hrest cs1 hch
    have hkcs1 : cs1.any (fun e => e.1 == k) = false := by
      cases hca : cs1.any (fun e => e.1 == k)
      · rfl
      · rcases hnm1 k hca with hc | hc
        · rw [hc] at hkdup; exact absurd hkdup (by simp)
        · exact absurd hc hkn
    refine ⟨?_, ?_, ?_, ?_⟩
    · rw [show wfC ((k, sub) :: cs1) =
        (validName k && !(cs1.any (fun e => e.1 == k)) && wfT sub && wfC cs1) from rfl]
      simp [hvk, hkcs1, hwsub, hw1]
    · intro m2 hm
      simp only [List.any_cons] at hm ⊢
      rcases Bool.or_eq_true_iff.mp hm with hc | hc
      · exact Or.inl (by rw [Bool.or_eq_true_iff]; exact Or.inl hc)
      · rcases hnm1 m2 hc with hc2 | hc2
        · exact Or.inl (by rw [Bool.or_eq_true_iff]; exact Or.inr hc2)
        · exact Or.inr hc2
    · rw [lookupCh_cons, if_neg hkn]
      exact hnd
    · intro b qrest hne
      rw [lookupCh_cons, lookupCh_cons]
      by_cases hb : k = b
      · rw [if_pos hb, if_pos hb]
      · rw [if_neg hb, if_neg hb]
        exact hpres1 b qrest hne

/-- The skip rule of `copyFile`, as a reusable lemma: an existing
destination file of equal size and modification time short-circuits the
copy and leaves the tree unchanged. -/
theorem copyFile_skip (content : String) (mtime mode : Nat)
    (dst : FSTree) (p : List String) (c2 : String) (mt2 md2 : Nat)
    (hne : p ≠ [])
    (hp : lookupT dst p = some (.file c2 mt2 md2))
    (hsize : c2.length = content.length)
    (hmtime : mt2 = mtime) :
    copyFile content mtime mode dst p = some (dst, false) := by
  obtain ⟨m, cs, hpar⟩ := lookup_parent_dir hne hp
  have h1 : mkdirAllT dst p.dropLast 0o755 = some dst :=
    mkdirAllT_noop dst p.dropLast 0o755 m cs hpar
  unfold copyFile
  simp only [h1, hp]
  rw [if_pos ⟨hsize, hmtime⟩]

/-- `copyFile` on success: well-formedness is preserved, a file with the
source's modification time and size stands at the destination path, and
every other existing node keeps its data. -/
theorem copyFile_post (content : String) (mtime mode : Nat) (dst : FSTree)
    (p : List String) (hw : wfT dst = true)
    (hnames : ∀ x ∈ p, validName x = true) :
    ∀ d2 copied, copyFile content mtime mode dst p = some (d2, copied) →
    wfT d2 = true ∧
    (∃ c' md', nodeAt d2 p = some (NodeS.file c' mtime md') ∧
      c'.length = content.length) ∧
    ∀ q, q ≠ p → nodeAt dst q ≠ none → nodeAt d2 q = nodeAt dst q := by
  intro d2 copied h
  have hnames' : ∀ x ∈ p.dropLast, validName x = true :=
    fun x hx => hnames x ((List.dropLast_sublist p).subset hx)
  unfold copyFile at h
  cases h1 : mkdirAllT dst p.dropLast 0o755 with
  | none => simp only [h1] at h; simp at h
  | some d1 =>
    simp only [h1] at h
    obtain ⟨hw1, _, hpres1⟩ := mkdirAllT_frame dst p.dropLast 0o755 hw hnames' d1 h1
    cases h2 : lookupT d1 p with
    | none =>
      simp only [h2] at h
      cases h3 : writeFileT d1 p content mtime mode with
      | none => simp only [h3] at h; simp at h
      | some d3 =>
        simp only [h3] at h
        injection h with h4
        injection h4 with ha hb
        subst ha
        obtain ⟨hw3, hnode3, hpres3⟩ := writeFileT_frame d1 p content mtime mode
          hw1 hnames d3 h3
        refine ⟨hw3, ⟨content, mode, hnode3, rfl⟩, ?_⟩
        intro q hq hex
        rw [hpres3 q hq]
        exact hpres1 q hex
    | some e =>
      cases e with
      | dir m0 cs0 => simp only [h2] at h; simp at h
      | file c2 mt2 md2 =>
        simp only [h2] at h
        by_cases hc : c2.length = content.length ∧ mt2 = mtime
        · rw [if_pos hc] at h
          injection h with h4
          injection h4 with ha hb
          subst ha
          refine ⟨hw1, ⟨c2, md2, ?_, hc.1⟩, ?_⟩
          · rw [nodeAt, h2, ← hc.2]
            rfl
          · intro q hq hex
            exact hpres1 q hex
        · rw [if_neg hc] at h
          cases h3 : writeFileT d1 p content mtime md2 with
          | none => simp only [h3] at h; simp at h
          | some d3 =>
            simp only [h3] at h
            injection h with h4
            injection h4 with ha hb
            subst ha
            obtain ⟨hw3, hnode3, hpres3⟩ := writeFileT_frame d1 p content mtime md2
              hw1 hnames d3 h3
            refine ⟨hw3, ⟨content, md2, hnode3, rfl⟩, ?_⟩
            intro q hq hex
            rw [hpres3 q hq]
            exact hpres1 q hex

/-- The valid-path set of a successful forward walk over a list of source
entries equals `validOf` of those entries. -/
theorem syncList_valid (pats : List String) (rel : List String) :
    ∀ (cs : List (String × FSTree)) (dst : FSTree) (d : FSTree)
      (v : List (List String)) (n : Nat),
    syncList pats rel cs dst = some (d, v, n) → v = validOf pats rel cs := by
  intro cs
  induction cs with
  | nil =>
    intro dst d v n h
    rw [show syncList pats rel [] dst = some (dst, [], 0) from rfl] at h
    injection h with h2
    injection h2 with _ h3
    injection h3 with h4 _
    rw [← h4]
    rfl
  | cons e cs ih =>
    obtain ⟨name, sub⟩ := e
    intro dst d v n h
    rw [show syncList pats rel ((name, sub) :: cs) dst =
      (match syncEntry pats rel name sub dst with
       | none => none
       | some (d1, v1, n1) =>
         match syncList pats rel cs d1 with
         | none => none
         | some (d2, v2, n2) => some (d2, v1 ++ v2, n1 + n2)) from rfl] at h
    cases h1 : syncEntry pats rel name sub dst with
    | none => simp only [h1] at h; simp at h
    | some r1 =>
      obtain ⟨d1, v1, n1⟩ := r1
      simp only [h1] at h
      cases h2 : syncList pats rel cs d1 with
      | none => simp only [h2] at h; simp at h
      | some r2 =>
        obtain ⟨d2, v2, n2⟩ := r2
        simp only [h2] at h
        injection h with h3
        injection h3 with _ h4
        injection h4 with h5 _
        rw [← h5, syncList_valid_eq pats rel name sub dst d1 v1 n1 h1,
          ih d1 d2 v2 n2 h2]
        rfl

/-- Every path recorded for one source entry starts with that entry's
name below the current directory. -/
theorem validOfE_shape (pats : List String) : ∀ (rel : List String) (name : String)
    (src : FSTree), ∀ r ∈ validOfE pats rel name src,
    ∃ s2, r = rel ++ name :: s2 := by
  intro rel name src
  induction rel, name, src using validOfE.induct pats with
  | motive_2 rel cs =>
    exact ∀ r ∈ validOf pats rel cs, ∃ s, s ≠ [] ∧ r = rel ++ s
  | case1 rel name c mt md hexcl =>
    intro r hr
    rw [show validOfE pats rel name (.file c mt md) = [] from by
      unfold validOfE; rw [if_pos hexcl]] at hr
    simp at hr
  | case2 rel name c mt md hexcl =>
    intro r hr
    rw [show validOfE pats rel name (.file c mt md) = [rel ++ [name]] from by
      unfold validOfE; rw [if_neg hexcl]] at hr
    simp at hr
    exact ⟨[], by simp [hr]⟩
  | case3 rel name m cs hexcl =>
    intro r hr
    rw [show validOfE pats rel name (.dir m cs) = [] from by
      unfold validOfE; rw [if_pos hexcl]] at hr
    simp at hr
  | case4 rel name m cs hexcl ih =>
    intro r hr
    rw [show validOfE pats rel name (.dir m cs) =
      (rel ++ [name]) :: validOf pats (rel ++ [name]) cs from by
      unfold validOfE; rw [if_neg hexcl]] at hr
    rcases List.mem_cons.mp hr with rfl | hr2
    · exact ⟨[], by simp⟩
    · obtain ⟨s, _, hr3⟩ := ih r hr2
      exact ⟨s, by simp [hr3]⟩
  | case5 rel =>
    intro r hr
    rw [show validOf pats rel [] = [] from rfl] at hr
    simp at hr
  | case6 rel n sub cs ih1 ih2 =>
    intro r hr
    rw [show validOf pats rel ((n, sub) :: cs) =
      validOfE pats rel n sub ++ validOf pats rel cs from rfl] at hr
    rcases List.mem_append.mp hr with hr2 | hr2
    · obtain ⟨s2, hr3⟩ := ih1 r hr2
      exact ⟨n :: s2, by simp, hr3⟩
    · exact ih2 r hr2

/-- Every recorded path extends the current directory by a nonempty
suffix. -/
theorem validOf_shape (pats : List String) (rel : List String) :
    ∀ (cs : List (String × FSTree)), ∀ r ∈ validOf pats rel cs,
    ∃ s, s ≠ [] ∧ r = rel ++ s := by
  intro cs
  induction cs with
  | nil =>
    intro r hr
    rw [show validOf pats rel [] = [] from rfl] at hr
    simp at hr
  | cons e cs ih =>
    obtain ⟨name, sub⟩ := e
    intro r hr
    rw [show validOf pats rel ((name, sub) :: cs) =
      validOfE pats rel name sub ++ validOf pats rel cs from rfl] at hr
    rcases List.mem_append.mp hr with hr2 | hr2
    · obtain ⟨s2, hr3⟩ := validOfE_shape pats rel name sub r hr2
      exact ⟨name :: s2, by simp, hr3⟩
    · exact ih r hr2

/-- Paths recorded for an entry are disjoint from the ones recorded for
its later siblings (entry names in a well-formed directory are distinct). -/
theorem valid_disjoint (pats : List String) (rel : List String) (name : String)
    (sub : FSTree) (cs : List (String × FSTree))
    (hw : wfC ((name, sub) :: cs) = true) :
    ∀ r ∈ validOfE pats rel name sub, r ∉ validOf pats rel cs := by
  intro r h1 h2
  obtain ⟨hvn, hdup, hwsub, hwcs⟩ := wfC_cons hw
  obtain ⟨s2, hr1⟩ := validOfE_shape pats rel name sub r h1
  obtain ⟨s, hr2, hsne, hchain⟩ := validOf_sound pats rel cs hwcs r h2
  have h3 : rel ++ s = rel ++ name :: s2 := by rw [← hr2, hr1]
  have hs : s = name :: s2 := by
    have := congrArg (List.drop rel.length) h3
    simpa using this
  subst hs
  obtain ⟨e, hsrc, _⟩ := hchain [name] (by simp)
    (by rw [List.cons_prefix_cons]; exact ⟨rfl, List.nil_prefix⟩)
  have hfound := lookupCh_found_name cs name [] e hsrc
  rw [hfound] at hdup
  exact absurd hdup (by simp)

/-- Every path recorded for an entry names an existing node of a
destination reflecting that entry. -/
theorem okE_paths_exist (pats : List String) (d : FSTree) :
    ∀ (rel : List String) (name : String) (src : FSTree),
    okE pats d rel name src →
    ∀ r ∈ validOfE pats rel name src, nodeAt d r ≠ none := by
  intro rel name src
  induction rel, name, src using validOfE.induct pats with
  | motive_2 rel cs =>
    exact okL pats d rel cs → ∀ r ∈ validOf pats rel cs, nodeAt d r ≠ none
  | case1 rel name c mt md hexcl =>
    intro _ r hr
    rw [show validOfE pats rel name (.file c mt md) = [] from by
      unfold validOfE; rw [if_pos hexcl]] at hr
    simp at hr
  | case2 rel name c mt md hexcl =>
    intro hok r hr
    rw [show validOfE pats rel name (.file c mt md) = [rel ++ [name]] from by
      unfold validOfE; rw [if_neg hexcl]] at hr
    simp at hr
    subst hr
    obtain ⟨c', md', hnode, _⟩ := hok (by simpa using hexcl)
    rw [hnode]
    simp
  | case3 rel name m cs hexcl =>
    intro _ r hr
    rw [show validOfE pats rel name (.dir m cs) = [] from by
      unfold validOfE; rw [if_pos hexcl]] at hr
    simp at hr
  | case4 rel name m cs hexcl ih =>
    intro hok r hr
    rw [show validOfE pats rel name (.dir m cs) =
      (rel ++ [name]) :: validOf pats (rel ++ [name]) cs from by
      unfold validOfE; rw [if_neg hexcl]] at hr
    obtain ⟨⟨md', hnode⟩, hokL⟩ := hok (by simpa using hexcl)
    rcases List.mem_cons.mp hr with rfl | hr2
    · rw [hnode]; simp
    · exact ih hokL r hr2
  | case5 rel =>
    intro _ r hr
    rw [show validOf pats rel [] = [] from rfl] at hr
    simp at hr
  | case6 rel n sub cs ih1 ih2 =>
    intro hok r hr
    rw [show validOf pats rel ((n, sub) :: cs) =
      validOfE pats rel n sub ++ validOf pats rel cs from rfl] at hr
    rcases List.mem_append.mp hr with hr2 | hr2
    · exact ih1 hok.1 r hr2
    · exact ih2 hok.2 r hr2

/-- `okE` transfers to another destination tree that agrees with the
current one on every recorded path. -/
theorem okE_mono (pats : List String) (d d3 : FSTree) :
    ∀ (rel : List String) (name : String) (src : FSTree),
    (∀ r ∈ validOfE pats rel name src, nodeAt d3 r = nodeAt d r) →
    okE pats d rel name src → okE pats d3 rel name src := by
  intro rel name src
  induction rel, name, src using validOfE.induct pats with
  | motive_2 rel cs =>
    exact (∀ r ∈ validOf pats rel cs, nodeAt d3 r = nodeAt d r) →
      okL pats d rel cs → okL pats d3 rel cs
  | case1 rel name c mt md hexcl =>
    intro _ _
    show okE pats d3 rel name (.file c mt md)
    unfold okE
    intro hguard
    exact absurd hexcl (by simp [hguard])
  | case2 rel name c mt md hexcl =>
    intro hagree hok
    show okE pats d3 rel name (.file c mt md)
    unfold okE
    intro hguard
    obtain ⟨c', md', hnode, hlen⟩ := hok hguard
    refine ⟨c', md', ?_, hlen⟩
    rw [hagree (rel ++ [name]) ?_, hnode]
    rw [show validOfE pats rel name (.file c mt md) = [rel ++ [name]] from by
      unfold validOfE; rw [if_neg hexcl]]
    simp
  | case3 rel name m cs hexcl =>
    intro _ _
    show okE pats d3 rel name (.dir m cs)
    unfold okE
    intro hguard
    exact absurd hexcl (by simp [hguard])
  | case4 rel name m cs hexcl ih =>
    intro hagree hok
    show okE pats d3 rel name (.dir m cs)
    unfold okE
    intro hguard
    have hlist : validOfE pats rel name (.dir m cs) =
        (rel ++ [name]) :: validOf pats (rel ++ [name]) cs := by
      unfold validOfE; rw [if_neg hexcl]
    obtain ⟨⟨md', hnode⟩, hokL⟩ := hok hguard
    refine ⟨⟨md', ?_⟩, ?_⟩
    · rw [hagree (rel ++ [name]) (by rw [hlist]; simp), hnode]
    · refine ih ?_ hokL
      intro r hr
      exact hagree r (by rw [hlist]; exact List.mem_cons_of_mem _ hr)
  | case5 rel =>
    intro _ _
    show okL pats d3 rel []
    unfold okL
    trivial
  | case6 rel n sub cs ih1 ih2 =>
    intro hagree hok
    show okL pats d3 rel ((n, sub) :: cs)
    unfold okL
    have hlist : validOf pats rel ((n, sub) :: cs) =
        validOfE pats rel n sub ++ validOf pats rel cs := rfl
    refine ⟨ih1 ?_ hok.1, ih2 ?_ hok.2⟩
    · intro r hr
      exact hagree r (by rw [hlist]; exact List.mem_append_left _ hr)
    · intro r hr
      exact hagree r (by rw [hlist]; exact List.mem_append_right _ hr)

/-- Postcondition of the forward walk over a directory's entries: the
destination stays well-formed, reflects every non-excluded source entry
(`okL`), and every existing node whose path was not recorded keeps its
data. -/
theorem syncList_post (pats : List String) : ∀ (rel : List String)
    (cs : List (String × FSTree)) (dst : FSTree),
    wfC cs = true → wfT dst = true → (∀ x ∈ rel, validName x = true) →
    ∀ d v n, syncList pats rel cs dst = some (d, v, n) →
    wfT d = true ∧ okL pats d rel cs ∧
    ∀ q, q ∉ v → nodeAt dst q ≠ none → nodeAt d q = nodeAt dst q := by
  intro rel cs dst
  induction rel, cs, dst using syncList.induct pats with
  | motive_1 rel name src dst =>
    exact wfT src = true → validName name = true → wfT dst = true →
      (∀ x ∈ rel, validName x = true) →
      ∀ d v n, syncEntry pats rel name src dst = some (d, v, n) →
      wfT d = true ∧ okE pats d rel name src ∧
      ∀ q, q ∉ v → nodeAt dst q ≠ none → nodeAt d q = nodeAt dst q
  | case1 rel name c mt md dst hexcl =>
    intro _ _ hwdst _ d v n h
    rw [show syncEntry pats rel name (.file c mt md) dst =
      some (dst, [], 0) from by unfold syncEntry; rw [if_pos hexcl]] at h
    injection h with h2
    injection h2 with hd h3
    injection h3 with hv hn
    subst hd hv
    refine ⟨hwdst, ?_, fun q _ _ => rfl⟩
    show okE pats dst rel name (.file c mt md)
    unfold okE
    intro hguard
    exact absurd hexcl (by simp [hguard])
  | case2 rel name c mt md dst hexcl hcopy =>
    intro _ _ _ _ d v n h
    rw [show syncEntry pats rel name (.file c mt md) dst = none from by
      unfold syncEntry; rw [if_neg hexcl, hcopy]] at h
    simp at h
  | case3 rel name c mt md dst hexcl d1 copied hcopy =>
    intro _ hname hwdst hrel d v n h
    rw [show syncEntry pats rel name (.file c mt md) dst =
      some (d1, [rel ++ [name]], if copied then 1 else 0) from by
      unfold syncEntry; rw [if_neg hexcl, hcopy]] at h
    injection h with h2
    injection h2 with hd h3
    injection h3 with hv hn
    subst hd hv
    have hnames : ∀ x ∈ rel ++ [name], validName x = true := by
      intro x hx
      rcases List.mem_append.mp hx with hx2 | hx2
      · exact hrel x hx2
      · rw [List.mem_singleton.mp hx2]
        exact hname
    obtain ⟨hw1, ⟨c', md', hnode, hlen⟩, hpres⟩ :=
      copyFile_post c mt md dst (rel ++ [name]) hwdst hnames d1 copied hcopy
    refine ⟨hw1, ?_, ?_⟩
    · show okE pats d1 rel name (.file c mt md)
      unfold okE
      intro _
      exact ⟨c', md', hnode, hlen⟩
    · intro q hq hex
      exact hpres q (fun h0 => hq (by rw [h0]; simp)) hex
  | case4 rel name m cs dst hexcl =>
    intro _ _ hwdst _ d v n h
    rw [show syncEntry pats rel name (.dir m cs) dst =
      some (dst, [], 0) from by unfold syncEntry; rw [if_pos hexcl]] at h
    injection h with h2
    injection h2 with hd h3
    injection h3 with hv hn
    subst hd hv
    refine ⟨hwdst, ?_, fun q _ _ => rfl⟩
    show okE pats dst rel name (.dir m cs)
    unfold okE
    intro hguard
    exact absurd hexcl (by simp [hguard])
  | case5 rel name m cs dst hexcl hmk =>
    intro _ _ _ _ d v n h
    rw [show syncEntry pats rel name (.dir m cs) dst = none from by
      unfold syncEntry; rw [if_neg hexcl, hmk]] at h
    simp at h
  | case6 rel name m cs dst hexcl sub' hmk hsync ih =>
    intro _ _ _ _ d v n h
    rw [show syncEntry pats rel name (.dir m cs) dst = none from by
      unfold syncEntry; rw [if_neg hexcl]; simp only [hmk, hsync]] at h
    simp at h
  | case7 rel name m cs dst hexcl sub' hmk d2 v2 n2 hsync ih =>
    intro hwsrc hname hwdst hrel d v n h
    rw [show syncEntry pats rel name (.dir m cs) dst =
      some (d2, (rel ++ [name]) :: v2, n2) from by
      unfold syncEntry; rw [if_neg hexcl]; simp only [hmk, hsync]] at h
    injection h with h2
    injection h2 with hd h3
    injection h3 with hv hn
    subst hd hv
    have hnames : ∀ x ∈ rel ++ [name], validName x = true := by
      intro x hx
      rcases List.mem_append.mp hx with hx2 | hx2
      · exact hrel x hx2
      · rw [List.mem_singleton.mp hx2]
        exact hname
    obtain ⟨hwsub', ⟨mdp, hndp⟩, hpres1⟩ :=
      mkdirAllT_frame dst (rel ++ [name]) m hwdst hnames sub' hmk
    have hwcs : wfC cs = true := hwsrc
    obtain ⟨hw2, hokL2, hpres2⟩ := ih hwcs hwsub' hnames d2 v2 n2 hsync
    have hv2 : v2 = validOf pats (rel ++ [name]) cs :=
      syncList_valid pats (rel ++ [name]) cs sub' d2 v2 n2 hsync
    have hpnotv2 : (rel ++ [name]) ∉ v2 := by
      intro hmem
      rw [hv2] at hmem
      obtain ⟨s, hsne, hs⟩ := validOf_shape pats (rel ++ [name]) cs _ hmem
      have h0 := congrArg List.length hs
      simp at h0
      exact hsne h0
    refine ⟨hw2, ?_, ?_⟩
    · show okE pats d2 rel name (.dir m cs)
      unfold okE
      intro _
      refine ⟨⟨mdp, ?_⟩, hokL2⟩
      rw [hpres2 (rel ++ [name]) hpnotv2 (by rw [hndp]; simp), hndp]
    · intro q hq hex
      have hq2 : q ∉ v2 := fun h0 => hq (List.mem_cons_of_mem _ h0)
      rw [hpres2 q hq2 (by rw [hpres1 q hex]; exact hex), hpres1 q hex]
  | case8 rel dst =>
    intro _ hwdst _ d v n h
    rw [show syncList pats rel [] dst = some (dst, [], 0) from rfl] at h
    injection h with h2
    injection h2 with hd h3
    injection h3 with hv hn
    subst hd hv
    refine ⟨hwdst, ?_, fun q _ _ => rfl⟩
    show okL pats dst rel []
    unfold okL
    trivial
  | case9 rel name sub cs dst h1 ih1 =>
    intro _ _ _ d v n h
    rw [show syncList pats rel ((name, sub) :: cs) dst =
      (match syncEntry pats rel name sub dst with
       | none => none
       | some (d1, w1, m1) =>
         match syncList pats rel cs d1 with
         | none => none
         | some (dd2, w2, m2) => some (dd2, w1 ++ w2, m1 + m2)) from rfl] at h
    simp only [h1] at h
    simp at h
  | case10 rel name sub cs dst d2 v1 n1 h1 h2 ih1 ih2 =>
    intro _ _ _ d v n h
    rw [show syncList pats rel ((name, sub) :: cs) dst =
      (match syncEntry pats rel name sub dst with
       | none => none
       | some (d1, w1, m1) =>
         match syncList pats rel cs d1 with
         | none => none
         | some (dd2, w2, m2) => some (dd2, w1 ++ w2, m1 + m2)) from rfl] at h
    simp only [h1, h2] at h
    simp at h
  | case11 rel name sub cs dst d2 v1 n1 h1 d3 v2 n2 h2 ih1 ih2 =>
    intro hwsrc hwdst hrel d v n h
    rw [show syncList pats rel ((name, sub) :: cs) dst =
      (match syncEntry pats rel name sub dst with
       | none => none
       | some (d1, w1, m1) =>
         match syncList pats rel cs d1 with
         | none => none
         | some (dd2, w2, m2) => some (dd2, w1 ++ w2, m1 + m2)) from rfl] at h
    simp only [h1, h2] at h
    injection h with h3
    injection h3 with hd h4
    injection h4 with hv hn
    subst hd hv
    obtain ⟨hvn, hdup, hwsub, hwcs⟩ := wfC_cons hwsrc
    obtain ⟨hwd2, hokE2, hpresE⟩ := ih1 hwsub hvn hwdst hrel d2 v1 n1 h1
    obtain ⟨hwd3, hokL3, hpresL⟩ := ih2 hwcs hwd2 hrel d3 v2 n2 h2
    have hv2 : v2 = validOf pats rel cs :=
      syncList_valid pats rel cs d2 d3 v2 n2 h2
    have hagree : ∀ r ∈ validOfE pats rel name sub, nodeAt d3 r = nodeAt d2 r := by
      intro r hr
      have hex := okE_paths_exist pats d2 rel name sub hokE2 r hr
      have hnr : r ∉ v2 := by
        rw [hv2]
        exact valid_disjoint pats rel name sub cs hwsrc r hr
      exact hpresL r hnr hex
    refine ⟨hwd3, ?_, ?_⟩
    · show okL pats d3 rel ((name, sub) :: cs)
      unfold okL
      exact ⟨okE_mono pats d2 d3 rel name sub hagree hokE2, hokL3⟩
    · intro q hq hex
      have hq1 : q ∉ v1 := fun h0 => hq (List.mem_append_left _ h0)
      have hq2 : q ∉ v2 := fun h0 => hq (List.mem_append_right _ h0)
      rw [hpresL q hq2 (by rw [hpresE q hq1 hex]; exact hex), hpresE q hq1 hex]

/-- A forward walk over a destination that already reflects the source is
a no-op: it returns the same tree, the same valid-path set, and performs
zero copies. -/
theorem syncList_noop (pats : List String) (d : FSTree) : ∀ (rel : List String)
    (cs : List (String × FSTree)),
    okL pats d rel cs → (∃ md0 cs0, lookupT d rel = some (.dir md0 cs0)) →
    syncList pats rel cs d = some (d, validOf pats rel cs, 0) := by
  intro rel cs
  induction rel, cs using validOf.induct pats with
  | motive_1 rel name src =>
    exact okE pats d rel name src → (∃ md0 cs0, lookupT d rel = some (.dir md0 cs0)) →
      syncEntry pats rel name src d = some (d, validOfE pats rel name src, 0)
  | case1 rel name c mt md hexcl =>
    intro _ _
    rw [show validOfE pats rel name (.file c mt md) = [] from by
      unfold validOfE; rw [if_pos hexcl]]
    unfold syncEntry
    rw [if_pos hexcl]
  | case2 rel name c mt md hexcl =>
    intro hok hroot
    obtain ⟨c', md', hnode, hlen⟩ := hok (by simpa using hexcl)
    obtain ⟨md0, cs0, hpar⟩ := hroot
    have hlook : lookupT d (rel ++ [name]) = some (.file c' mt md') :=
      nodeAt_file_inv hnode
    have hskip : copyFile c mt md d (rel ++ [name]) = some (d, false) := by
      refine copyFile_skip c mt md d (rel ++ [name]) c' mt md' (by simp) hlook hlen rfl
    rw [show validOfE pats rel name (.file c mt md) = [rel ++ [name]] from by
      unfold validOfE; rw [if_neg hexcl]]
    unfold syncEntry
    rw [if_neg hexcl]
    simp only [hskip]
    rfl
  | case3 rel name m cs hexcl =>
    intro _ _
    rw [show validOfE pats rel name (.dir m cs) = [] from by
      unfold validOfE; rw [if_pos hexcl]]
    unfold syncEntry
    rw [if_pos hexcl]
  | case4 rel name m cs hexcl ih =>
    intro hok hroot
    obtain ⟨⟨md', hnode⟩, hokL⟩ := hok (by simpa using hexcl)
    obtain ⟨cs', hlook⟩ := nodeAt_dir_inv hnode
    have hmk : mkdirAllT d (rel ++ [name]) m = some d :=
      mkdirAllT_noop d (rel ++ [name]) m md' cs' hlook
    have hrec : syncList pats (rel ++ [name]) cs d =
        some (d, validOf pats (rel ++ [name]) cs, 0) :=
      ih hokL ⟨md', cs', hlook⟩
    rw [show validOfE pats rel name (.dir m cs) =
      (rel ++ [name]) :: validOf pats (rel ++ [name]) cs from by
      unfold validOfE; rw [if_neg hexcl]]
    unfold syncEntry
    rw [if_neg hexcl]
    simp only [hmk, hrec]
  | case5 rel =>
    intro _ _
    rfl
  | case6 rel n sub cs ih1 ih2 =>
    intro hok hroot
    have h1 := ih1 hok.1 hroot
    have h2 := ih2 hok.2 hroot
    rw [show syncList pats rel ((n, sub) :: cs) d =
      (match syncEntry pats rel n sub d with
       | none => none
       | some (d1, w1, m1) =>
         match syncList pats rel cs d1 with
         | none => none
         | some (dd2, w2, m2) => some (dd2, w1 ++ w2, m1 + m2)) from rfl]
    simp only [h1, h2]
    rfl

/-- `okL` transfers to another destination tree that agrees with the
current one on every recorded path. -/
theorem okL_mono (pats : List String) (d d3 : FSTree) : ∀ (rel : List String)
    (cs : List (String × FSTree)),
    (∀ r ∈ validOf pats rel cs, nodeAt d3 r = nodeAt d r) →
    okL pats d rel cs → okL pats d3 rel cs := by
  intro rel cs
  induction cs with
  | nil =>
    intro _ _
    show okL pats d3 rel []
    unfold okL
    trivial
  | cons e cs ih =>
    obtain ⟨name, sub⟩ := e
    intro hagree hok
    show okL pats d3 rel ((name, sub) :: cs)
    unfold okL
    have hlist : validOf pats rel ((name, sub) :: cs) =
        validOfE pats rel name sub ++ validOf pats rel cs := rfl
    refine ⟨okE_mono pats d d3 rel name sub ?_ hok.1, ih ?_ hok.2⟩
    · intro r hr
      exact hagree r (by rw [hlist]; exact List.mem_append_left _ hr)
    · intro r hr
      exact hagree r (by rw [hlist]; exact List.mem_append_right _ hr)

/-! ## Claim C1: exclusion prunes whole subtrees -/

/-- C1.  If a source directory's relative path is excluded by
`shouldExclude`, then a successful `sync` records nothing at or under that
directory in the valid-path set, and after the run no node exists in the
destination at or under the corresponding destination path — even when a
nested file's own relative path matches no pattern. -/
theorem c1_exclusion_pruning (pats : List String) (m : Nat)
    (cs : List (String × FSTree)) (dst d : FSTree) (v : List (List String))
    (n : Nat) (p0 : List String) (m0 : Nat) (cs0 : List (String × FSTree))
    (hwsrc : wfT (.dir m cs) = true) (hwdst : wfT dst = true)
    (hrun : sync (.dir m cs) dst pats = some (d, v, n))
    (hdir : srcAtC cs p0 = some (.dir m0 cs0))
    (hexcl : shouldExclude (joinPath p0) pats true = true) :
    (∀ r ∈ v, ¬ p0 <+: r) ∧ ∀ q, p0 <+: q → nodeAt d q = none := by
  have hwcs : wfC cs = true := hwsrc
  rw [show sync (.dir m cs) dst pats =
    (match syncList pats [] cs dst with
     | none => none
     | some (d1, v1, n1) => some (cleanOrphans d1 v1, v1, n1)) from rfl] at hrun
  cases h1 : syncList pats [] cs dst with
  | none =>
    simp only [h1] at hrun
    simp at hrun
  | some r1 =>
    obtain ⟨d1, v1, n1⟩ := r1
    simp only [h1] at hrun
    injection hrun with h2
    injection h2 with hd h3
    injection h3 with hv hn
    subst hd hv
    have hveq : v1 = validOf pats [] cs := syncList_valid pats [] cs dst d1 v1 n1 h1
    have hp0ne : p0 ≠ [] := by
      intro h0
      subst h0
      exact absurd hdir (by rw [show srcAtC cs [] = none from rfl]; simp)
    have hnp : ∀ r ∈ v1, ¬ p0 <+: r := by
      intro r hr hpre
      rw [hveq] at hr
      obtain ⟨s, hrs, hsne, hchain⟩ := validOf_sound pats [] cs hwcs r hr
      rw [List.nil_append] at hrs
      subst hrs
      obtain ⟨e, hsrc, hex⟩ := hchain p0 hp0ne hpre
      rw [hdir] at hsrc
      injection hsrc with he
      rw [← he] at hex
      rw [List.nil_append] at hex
      rw [show (FSTree.dir m0 cs0).isDir = true from rfl] at hex
      exact absurd hexcl (by simp [hex])
    refine ⟨hnp, ?_⟩
    intro q hq
    have hqne : q ≠ [] := by
      intro h0
      subst h0
      exact hp0ne (List.prefix_nil.mp hq)
    have hqnv : q ∉ v1 := fun hmem => hnp q hmem hq
    have hwd1 : wfT d1 = true :=
      (syncList_post pats [] cs dst hwcs hwdst (by simp) d1 v1 n1 h1).1
    have hac : ancClosed v1 := by
      rw [hveq]
      exact validOf_ancClosed pats cs hwcs
    obtain ⟨_, hspec⟩ := cleanOrphans_spec d1 v1 hwd1 hac
    rw [hspec q hqne, if_neg hqnv]

/-- Witness for C1 at a concrete input: the directory `build` is excluded
by the pattern `"build"`, and although the nested file `build/x` matches
no pattern itself, nothing at or under `build` survives in the valid-path
set or the destination. -/
theorem c1_exclusion_pruning_witness :
    shouldExclude (joinPath ["build"]) ["build"] true = true ∧
    sync (FSTree.dir 0 [("build", .dir 1 [("x", .file "a" 2 3)]),
        ("keep", .file "k" 4 5)]) (FSTree.dir 6 []) ["build"] =
      some (FSTree.dir 6 [("keep", FSTree.file "k" 4 5)], [["keep"]], 1) ∧
    ((∀ r ∈ [["keep"]], ¬ ["build"] <+: r) ∧
      ∀ q, ["build"] <+: q →
        nodeAt (FSTree.dir 6 [("keep", FSTree.file "k" 4 5)]) q = none) :=
  ⟨rfl, rfl,
    c1_exclusion_pruning ["build"] 0
      [("build", .dir 1 [("x", .file "a" 2 3)]), ("keep", .file "k" 4 5)]
      (FSTree.dir 6 []) (FSTree.dir 6 [("keep", FSTree.file "k" 4 5)])
      [["keep"]] 1 ["build"] 1 [("x", .file "a" 2 3)] rfl rfl rfl rfl rfl⟩

/-! ## Claim C2: orphan removal, valid paths untouched -/

/-- C2.  A successful `sync` run consists of a forward phase producing a
destination tree `d1` and valid-path set `v`, followed by `cleanOrphans`:
afterwards every nonempty destination path outside `v` (a file, or a
directory with its entire subtree) no longer exists, and every path in
`v` carries exactly the node the forward phase left there. -/
theorem c2_orphan_removal (pats : List String) (m : Nat)
    (cs : List (String × FSTree)) (dst d : FSTree) (v : List (List String))
    (n : Nat)
    (hwsrc : wfT (.dir m cs) = true) (hwdst : wfT dst = true)
    (hrun : sync (.dir m cs) dst pats = some (d, v, n)) :
    ∃ d1, syncList pats [] cs dst = some (d1, v, n) ∧
      ∀ q, q ≠ [] →
        (q ∉ v → nodeAt d q = none) ∧
        (q ∈ v → nodeAt d q = nodeAt d1 q) := by
  have hwcs : wfC cs = true := hwsrc
  rw [show sync (.dir m cs) dst pats =
    (match syncList pats [] cs dst with
     | none => none
     | some (d1, v1, n1) => some (cleanOrphans d1 v1, v1, n1)) from rfl] at hrun
  cases h1 : syncList pats [] cs dst with
  | none =>
    simp only [h1] at hrun
    simp at hrun
  | some r1 =>
    obtain ⟨d1, v1, n1⟩ := r1
    simp only [h1] at hrun
    injection hrun with h2
    injection h2 with hd h3
    injection h3 with hv hn
    subst hd hv hn
    refine ⟨d1, rfl, ?_⟩
    have hveq : v1 = validOf pats [] cs := syncList_valid pats [] cs dst d1 v1 n1 h1
    have hwd1 : wfT d1 = true :=
      (syncList_post pats [] cs dst hwcs hwdst (by simp) d1 v1 n1 h1).1
    have hac : ancClosed v1 := by
      rw [hveq]
      exact validOf_ancClosed pats cs hwcs
    obtain ⟨_, hspec⟩ := cleanOrphans_spec d1 v1 hwd1 hac
    intro q hq
    constructor
    · intro hqnv
      rw [hspec q hq, if_neg hqnv]
    · intro hqv
      rw [hspec q hq, if_pos hqv]

/-- Witness for C2 at a concrete input: the orphan file `orphan` and the
orphan directory `sub` (with its nested file `sub/deep`) are removed,
while the synced path `a` is untouched. -/
theorem c2_orphan_removal_witness :
    sync (FSTree.dir 0 [("a", .file "x" 1 2)])
        (FSTree.dir 3 [("orphan", .file "z" 9 9),
          ("sub", .dir 4 [("deep", .file "w" 1 1)])]) [] =
      some (FSTree.dir 3 [("a", FSTree.file "x" 1 2)], [["a"]], 1) ∧
    (∃ d1, syncList [] [] [("a", FSTree.file "x" 1 2)]
        (FSTree.dir 3 [("orphan", .file "z" 9 9),
          ("sub", .dir 4 [("deep", .file "w" 1 1)])]) =
        some (d1, [["a"]], 1) ∧
      ∀ q, q ≠ [] →
        (q ∉ [["a"]] →
          nodeAt (FSTree.dir 3 [("a", FSTree.file "x" 1 2)]) q = none) ∧
        (q ∈ [["a"]] →
          nodeAt (FSTree.dir 3 [("a", FSTree.file "x" 1 2)]) q = nodeAt d1 q)) :=
  ⟨rfl,
    c2_orphan_removal [] 0 [("a", .file "x" 1 2)]
      (FSTree.dir 3 [("orphan", .file "z" 9 9),
        ("sub", .dir 4 [("deep", .file "w" 1 1)])])
      (FSTree.dir 3 [("a", FSTree.file "x" 1 2)]) [["a"]] 1 rfl rfl rfl⟩

/-! ## Claim C3: idempotence of `sync` -/

/-- C3.  With the source unchanged and no concurrent modification, running
`sync` a second time returns the destination byte-identically (the same
tree `d`) and performs zero file copies: every copy of the first run
restored the source modification time, so the equal-size-and-equal-mtime
check skips every file. -/
theorem c3_idempotence (pats : List String) (m : Nat)
    (cs : List (String × FSTree)) (dm : Nat) (dcs : List (String × FSTree))
    (d : FSTree) (v : List (List String)) (n : Nat)
    (hwsrc : wfT (.dir m cs) = true) (hwdst : wfT (.dir dm dcs) = true)
    (hrun : sync (.dir m cs) (.dir dm dcs) pats = some (d, v, n)) :
    sync (.dir m cs) d pats = some (d, v, 0) := by
  have hwcs : wfC cs = true := hwsrc
  rw [show sync (.dir m cs) (.dir dm dcs) pats =
    (match syncList pats [] cs (.dir dm dcs) with
     | none => none
     | some (d1, v1, n1) => some (cleanOrphans d1 v1, v1, n1)) from rfl] at hrun
  cases h1 : syncList pats [] cs (.dir dm dcs) with
  | none =>
    simp only [h1] at hrun
    simp at hrun
  | some r1 =>
    obtain ⟨d1, v1, n1⟩ := r1
    simp only [h1] at hrun
    injection hrun with h2
    injection h2 with hd h3
    injection h3 with hv hn
    subst hd hv
    obtain ⟨hwd1, hokL1, hpres1⟩ :=
      syncList_post pats [] cs (.dir dm dcs) hwcs hwdst (by simp) d1 v1 n1 h1
    have hveq : v1 = validOf pats [] cs :=
      syncList_valid pats [] cs (.dir dm dcs) d1 v1 n1 h1
    subst hveq
    have hac : ancClosed (validOf pats [] cs) := validOf_ancClosed pats cs hwcs
    obtain ⟨hwd, hspec⟩ := cleanOrphans_spec d1 (validOf pats [] cs) hwd1 hac
    have hrootnil : ([] : List String) ∉ validOf pats [] cs := by
      intro hmem
      obtain ⟨s, hsne, hs⟩ := validOf_shape pats [] cs [] hmem
      rw [List.nil_append] at hs
      exact hsne hs.symm
    have hroot0 : nodeAt (FSTree.dir dm dcs) [] = some (NodeS.dir dm) := by
      rw [nodeAt, lookupT_nil]
      rfl
    have hroot1 : nodeAt d1 [] = some (NodeS.dir dm) := by
      rw [hpres1 [] hrootnil (by rw [hroot0]; simp), hroot0]
    have hrootd : nodeAt (cleanOrphans d1 (validOf pats [] cs)) [] =
        some (NodeS.dir dm) := by
      rw [cleanOrphans_root d1 (validOf pats [] cs) hwd1]
      exact hroot1
    obtain ⟨dcs2, hlookroot⟩ := nodeAt_dir_inv hrootd
    have hagree : ∀ r ∈ validOf pats [] cs,
        nodeAt (cleanOrphans d1 (validOf pats [] cs)) r = nodeAt d1 r := by
      intro r hr
      have hrne : r ≠ [] := by
        obtain ⟨s, hsne, hs⟩ := validOf_shape pats [] cs r hr
        rw [List.nil_append] at hs
        rw [hs]
        exact hsne
      rw [hspec r hrne, if_pos hr]
    have hokLd : okL pats (cleanOrphans d1 (validOf pats [] cs)) [] cs :=
      okL_mono pats d1 (cleanOrphans d1 (validOf pats [] cs)) [] cs hagree hokL1
    have hnoop : syncList pats [] cs (cleanOrphans d1 (validOf pats [] cs)) =
        some (cleanOrphans d1 (validOf pats [] cs), validOf pats [] cs, 0) :=
      syncList_noop pats (cleanOrphans d1 (validOf pats [] cs)) [] cs hokLd
        ⟨dm, dcs2, hlookroot⟩
    have hvalid_all : ∀ q, q ≠ [] →
        (lookupT (cleanOrphans d1 (validOf pats [] cs)) q).isSome →
        ([] ++ q) ∈ validOf pats [] cs := by
      intro q hq hs
      rw [List.nil_append]
      by_contra hnv
      have h0 := hspec q hq
      rw [if_neg hnv] at h0
      rw [nodeAt] at h0
      cases hl : lookupT (cleanOrphans d1 (validOf pats [] cs)) q with
      | none =>
        rw [hl] at hs
        simp at hs
      | some u =>
        rw [hl] at h0
        simp at h0
    have hempty : collectT (validOf pats [] cs) []
        (cleanOrphans d1 (validOf pats [] cs)) = [] :=
      collect_empty (validOf pats [] cs) [] (cleanOrphans d1 (validOf pats [] cs))
        hwd hvalid_all
    have hclean : cleanOrphans (cleanOrphans d1 (validOf pats [] cs))
        (validOf pats [] cs) = cleanOrphans d1 (validOf pats [] cs) := by
      rw [show cleanOrphans (cleanOrphans d1 (validOf pats [] cs))
          (validOf pats [] cs) =
        (collectT (validOf pats [] cs) [] (cleanOrphans d1 (validOf pats [] cs))).foldl
          removeAllT (cleanOrphans d1 (validOf pats [] cs)) from rfl, hempty]
      rfl
    rw [show sync (.dir m cs) (cleanOrphans d1 (validOf pats [] cs)) pats =
      (match syncList pats [] cs (cleanOrphans d1 (validOf pats [] cs)) with
       | none => none
       | some (d1', v1', n1') => some (cleanOrphans d1' v1', v1', n1')) from rfl]
    simp only [hnoop]
    rw [hclean]

/-- Witness for C3 at a concrete input: after the first run copies `f`,
the second run returns the identical destination with zero copies. -/
theorem c3_idempotence_witness :
    sync (FSTree.dir 0 [("f", .file "hi" 7 4)]) (FSTree.dir 1 []) [] =
      some (FSTree.dir 1 [("f", FSTree.file "hi" 7 4)], [["f"]], 1) ∧
    sync (FSTree.dir 0 [("f", .file "hi" 7 4)])
        (FSTree.dir 1 [("f", FSTree.file "hi" 7 4)]) [] =
      some (FSTree.dir 1 [("f", FSTree.file "hi" 7 4)], [["f"]], 0) :=
  ⟨rfl,
    c3_idempotence [] 0 [("f", .file "hi" 7 4)] 1 []
      (FSTree.dir 1 [("f", FSTree.file "hi" 7 4)]) [["f"]] 1 rfl rfl rfl⟩
